import Mathlib

/-!
# Verification of the dulwich pack/object-store core against its specification

This file gives a shallow embedding, in Lean 4, of the parts of the
`dulwich` repository that the specification's claims are about:

* the delta codec (`create_delta` / `apply_delta`, spec §4.1),
* pack/index trailer checksum verification (spec §4.3/§4.4),
* the pack index writers and loaders for versions 1, 2 and 3 (spec §4.4),
* the delta chain iterator (spec §4.5),
* `ParentsProvider`, graftpoint (de)serialization and the shallow-set
  update logic from `dulwich/repo.py`.

The pack subsystem itself (`dulwich/pack.py`) is not among the source
files available here (only its test suite is), so those definitions are
modelled from the specification text, as indicated in their doc comments.
The definitions for `repo.py` are translated directly from the source.

Byte strings are modelled as `List Nat` with each element `< 256` where
it matters; machine integers are `Nat` with explicit `% 2^w` reductions.
Fallible operations return `Except`/`Option`.
-/

namespace Dulwich

/-! ## Delta codec (spec §4.1)

Modelled from the spec: `dulwich/pack.py`'s `apply_delta` and
`create_delta` are not in the available sources.  The delta stream
starts with two varint sizes (source, target), followed by instructions:
`op = 0` is reserved (fails), `op < 0x80` inserts `op` literal bytes,
`op ≥ 0x80` copies from the source with the low seven bits selecting
which of four offset bytes and three size bytes follow; a fully-zero
size means `0x10000`. -/

inductive DeltaError where
  | invalidOpcode
  | copyOutOfRange
  | appliedSizeMismatch
  | sourceSizeMismatch
  | truncatedDelta
  deriving DecidableEq, Repr

/-- Parse a little-endian base-128 varint: low seven bits per byte,
high bit marks continuation.  Returns the value and the remaining
stream, or `none` if the stream ends inside the varint. -/
def parseVarint : List Nat → Option (Nat × List Nat)
  | [] => none
  | b :: rest =>
    if b < 128 then some (b, rest)
    else match parseVarint rest with
      | none => none
      | some (v, r) => some (b % 128 + 128 * v, r)

/-- Encode a natural number as a little-endian base-128 varint. -/
def encodeVarint (n : Nat) : List Nat :=
  if h : n < 128 then [n]
  else (n % 128 + 128) :: encodeVarint (n / 128)
  decreasing_by exact Nat.div_lt_self (by omega) (by omega)

/-- Parse the operand bytes of a copy instruction with opcode `op`:
bit `i` (for `i < 4`) selects presence of offset byte `i`, bit `4+j`
(for `j < 3`) selects presence of size byte `j`; absent bytes are zero;
a fully-zero size means `0x10000`.  Returns `(offset, size, consumed)`. -/
def parseCopy (op : Nat) (s : List Nat) : Except DeltaError (Nat × Nat × Nat) :=
  let readIf : Bool → List Nat → Option (Nat × List Nat) := fun flag t =>
    if flag then
      match t with
      | [] => none
      | b :: t2 => some (b, t2)
    else some (0, t)
  match readIf (op.testBit 0) s with
  | none => .error .truncatedDelta
  | some (o0, s0s) =>
  match readIf (op.testBit 1) s0s with
  | none => .error .truncatedDelta
  | some (o1, s1s) =>
  match readIf (op.testBit 2) s1s with
  | none => .error .truncatedDelta
  | some (o2, s2s) =>
  match readIf (op.testBit 3) s2s with
  | none => .error .truncatedDelta
  | some (o3, s3s) =>
  match readIf (op.testBit 4) s3s with
  | none => .error .truncatedDelta
  | some (z0, s4s) =>
  match readIf (op.testBit 5) s4s with
  | none => .error .truncatedDelta
  | some (z1, s5s) =>
  match readIf (op.testBit 6) s5s with
  | none => .error .truncatedDelta
  | some (z2, s6s) =>
    let off := o0 + 256 * o1 + 65536 * o2 + 16777216 * o3
    let szRaw := z0 + 256 * z1 + 65536 * z2
    let sz := if szRaw = 0 then 65536 else szRaw
    .ok (off, sz, s.length - s6s.length)

/-- Interpret the instruction part of a delta stream against source
`src`, accumulating output chunks in `acc` (spec §4.1 Apply). -/
def processInstrs (src : List Nat) (stream : List Nat) (acc : List Nat) :
    Except DeltaError (List Nat) :=
  match stream with
  | [] => .ok acc
  | op :: rest =>
    if op = 0 then .error .invalidOpcode
    else if op < 128 then
      processInstrs src (rest.drop op) (acc ++ rest.take op)
    else
      match parseCopy op rest with
      | .error e => .error e
      | .ok (off, sz, consumed) =>
        if src.length < off + sz then .error .copyOutOfRange
        else processInstrs src (rest.drop consumed) (acc ++ ((src.drop off).take sz))
  termination_by stream.length
  decreasing_by
  · simp only [List.length_cons, List.length_drop]
    omega
  · simp only [List.length_cons, List.length_drop]
    omega

/-- Apply a delta to a source buffer (spec §4.1):  parse the two varint
sizes, verify the source size, run the instructions, and verify the
produced length against the declared target length. -/
def apply_delta (src : List Nat) (delta : List Nat) : Except DeltaError (List Nat) :=
  match parseVarint delta with
  | none => .error .truncatedDelta
  | some (srcLen, r1) =>
    if srcLen ≠ src.length then .error .sourceSizeMismatch
    else match parseVarint r1 with
      | none => .error .truncatedDelta
      | some (destLen, r2) =>
        match processInstrs src r2 [] with
        | .error e => .error e
        | .ok out => if out.length = destLen then .ok out else .error .appliedSizeMismatch

/-- Length of the longest common prefix of two byte strings. -/
def commonPrefixLen : List Nat → List Nat → Nat
  | [], _ => 0
  | _, [] => 0
  | a :: as', b :: bs' => if a = b then commonPrefixLen as' bs' + 1 else 0

/-- Emit insert instructions covering `data`, in chunks of at most 127
literal bytes each. -/
def insertOps (data : List Nat) : List Nat :=
  if h : data = [] then []
  else
    let c := min data.length 127
    c :: (data.take c ++ insertOps (data.drop c))
  termination_by data.length
  decreasing_by
    have hlen : 0 < data.length := by
      cases data with
      | nil => exact absurd rfl h
      | cons x xs => simp
    simp only [List.length_drop]
    omega

/-- Encode a copy instruction with all four offset bytes and all three
size bytes explicitly present (opcode `0xFF`). -/
def encodeCopy (off sz : Nat) : List Nat :=
  [255, off % 256, off / 256 % 256, off / 65536 % 256, off / 16777216 % 256,
   sz % 256, sz / 256 % 256, sz / 65536 % 256]

/-- Create a delta turning `base` into `target` (spec §4.1 Create: any
algorithm producing a valid delta is admissible; this one copies the
longest common prefix, capped at `0xFFFF`, and inserts the remainder). -/
def create_delta (base target : List Nat) : List Nat :=
  let p := min (commonPrefixLen base target) 65535
  encodeVarint base.length ++ encodeVarint target.length ++
    (if p = 0 then [] else encodeCopy 0 p) ++ insertOps (target.drop p)

/-! ### Delta codec lemmas -/

theorem parseVarint_encode (n : Nat) (rest : List Nat) :
    parseVarint (encodeVarint n ++ rest) = some (n, rest) := by
  induction n using encodeVarint.induct with
  | case1 n h =>
    rw [encodeVarint, dif_pos h]
    simp [parseVarint, h]
  | case2 n h ih =>
    rw [encodeVarint, dif_neg h]
    rw [List.cons_append, parseVarint]
    have h1 : ¬ (n % 128 + 128 < 128) := by omega
    rw [if_neg h1, ih]
    show some ((n % 128 + 128) % 128 + 128 * (n / 128), rest) = some (n, rest)
    have h2 : (n % 128 + 128) % 128 + 128 * (n / 128) = n := by omega
    rw [h2]

theorem processInstrs_nil (src acc : List Nat) : processInstrs src [] acc = .ok acc := by
  rw [processInstrs.eq_def]

theorem processInstrs_cons (src : List Nat) (op : Nat) (rest acc : List Nat) :
    processInstrs src (op :: rest) acc =
      if op = 0 then .error .invalidOpcode
      else if op < 128 then
        processInstrs src (rest.drop op) (acc ++ rest.take op)
      else
        match parseCopy op rest with
        | .error e => .error e
        | .ok (off, sz, consumed) =>
          if src.length < off + sz then .error .copyOutOfRange
          else processInstrs src (rest.drop consumed) (acc ++ ((src.drop off).take sz)) := by
  rw [processInstrs.eq_def]

theorem processInstrs_insertOps (src : List Nat) (data : List Nat) :
    ∀ rest acc, processInstrs src (insertOps data ++ rest) acc =
      processInstrs src rest (acc ++ data) := by
  induction data using insertOps.induct with
  | case1 =>
    intro rest acc
    simp [insertOps]
  | case2 data h c ih =>
    intro rest acc
    have hceq : c = min data.length 127 := rfl
    rw [hceq] at ih
    have hlen : 0 < data.length := by
      cases data with
      | nil => exact absurd rfl h
      | cons x xs => simp
    have hc1 : 1 ≤ min data.length 127 := by omega
    have hc127 : min data.length 127 < 128 := by omega
    have hcd : min data.length 127 ≤ data.length := by omega
    have hlentake : (data.take (min data.length 127)).length = min data.length 127 := by
      simp [List.length_take]
    have hbody : insertOps data =
        min data.length 127 ::
          (data.take (min data.length 127) ++ insertOps (data.drop (min data.length 127))) := by
      rw [insertOps, dif_neg h]
    rw [hbody, List.cons_append, List.append_assoc, processInstrs_cons]
    have hne : ¬ (min data.length 127 = 0) := by omega
    rw [if_neg hne, if_pos hc127]
    have htake : (data.take (min data.length 127) ++
        (insertOps (data.drop (min data.length 127)) ++ rest)).take (min data.length 127) =
        data.take (min data.length 127) := by
      rw [List.take_append_of_le_length (by omega)]
      rw [List.take_take]
      simp
    have hdrop : (data.take (min data.length 127) ++
        (insertOps (data.drop (min data.length 127)) ++ rest)).drop (min data.length 127) =
        insertOps (data.drop (min data.length 127)) ++ rest := by
      rw [List.drop_append_of_le_length (by omega)]
      rw [List.drop_eq_nil_of_le (by omega)]
      simp
    rw [htake, hdrop, ih]
    rw [List.append_assoc, List.take_append_drop]

theorem processInstrs_insertOps_final (src data acc : List Nat) :
    processInstrs src (insertOps data) acc = .ok (acc ++ data) := by
  have h := processInstrs_insertOps src data [] acc
  rw [List.append_nil] at h
  rw [h, processInstrs_nil]

theorem parseCopy_op255 (o0 o1 o2 o3 z0 z1 z2 : Nat) (tail : List Nat) :
    parseCopy 255 (o0 :: o1 :: o2 :: o3 :: z0 :: z1 :: z2 :: tail) =
      .ok (o0 + 256 * o1 + 65536 * o2 + 16777216 * o3,
        (if z0 + 256 * z1 + 65536 * z2 = 0 then 65536 else z0 + 256 * z1 + 65536 * z2),
        7) := by
  have hb0 : Nat.testBit 255 0 = true := by decide
  have hb1 : Nat.testBit 255 1 = true := by decide
  have hb2 : Nat.testBit 255 2 = true := by decide
  have hb3 : Nat.testBit 255 3 = true := by decide
  have hb4 : Nat.testBit 255 4 = true := by decide
  have hb5 : Nat.testBit 255 5 = true := by decide
  have hb6 : Nat.testBit 255 6 = true := by decide
  simp only [parseCopy, hb0, hb1, hb2, hb3, hb4, hb5, hb6, if_pos, List.length_cons]
  have hlen : tail.length + 1 + 1 + 1 + 1 + 1 + 1 + 1 - tail.length = 7 := by omega
  rw [hlen]

theorem processInstrs_copy (src : List Nat) (off sz : Nat) (rest acc : List Nat)
    (hoff : off < 4294967296) (hsz1 : 1 ≤ sz) (hsz2 : sz < 16777216) :
    processInstrs src (encodeCopy off sz ++ rest) acc =
      if src.length < off + sz then .error .copyOutOfRange
      else processInstrs src rest (acc ++ ((src.drop off).take sz)) := by
  show processInstrs src
      (255 :: (off % 256 :: off / 256 % 256 :: off / 65536 % 256 :: off / 16777216 % 256 ::
        sz % 256 :: sz / 256 % 256 :: sz / 65536 % 256 :: rest)) acc = _
  rw [processInstrs_cons]
  rw [if_neg (by omega), if_neg (by omega)]
  rw [parseCopy_op255]
  have hooff : off % 256 + 256 * (off / 256 % 256) + 65536 * (off / 65536 % 256) +
      16777216 * (off / 16777216 % 256) = off := by omega
  have hosz : sz % 256 + 256 * (sz / 256 % 256) + 65536 * (sz / 65536 % 256) = sz := by omega
  rw [hooff, hosz, if_neg (by omega)]
  simp only [List.drop_succ_cons, List.drop_zero]

theorem commonPrefixLen_le_left (a b : List Nat) : commonPrefixLen a b ≤ a.length := by
  induction a generalizing b with
  | nil => simp [commonPrefixLen]
  | cons x xs ih =>
    cases b with
    | nil => simp [commonPrefixLen]
    | cons y ys =>
      rw [commonPrefixLen]
      by_cases h : x = y
      · rw [if_pos h]
        simp only [List.length_cons]
        have := ih ys
        omega
      · rw [if_neg h]
        omega

theorem take_eq_of_le_commonPrefixLen (a b : List Nat) (n : Nat)
    (h : n ≤ commonPrefixLen a b) : a.take n = b.take n := by
  induction a generalizing b n with
  | nil =>
    simp [commonPrefixLen] at h
    subst h
    simp
  | cons x xs ih =>
    cases b with
    | nil =>
      simp [commonPrefixLen] at h
      subst h
      simp
    | cons y ys =>
      rw [commonPrefixLen] at h
      by_cases hxy : x = y
      · rw [if_pos hxy] at h
        cases n with
        | zero => simp
        | succ m =>
          subst hxy
          simp only [List.take_succ_cons]
          rw [ih ys m (by omega)]
      · rw [if_neg hxy] at h
        have : n = 0 := by omega
        subst this
        simp

theorem apply_delta_parts (src stream : List Nat) (tgtLen : Nat) :
    apply_delta src (encodeVarint src.length ++ encodeVarint tgtLen ++ stream) =
      (match processInstrs src stream [] with
      | .error e => .error e
      | .ok out =>
        if out.length = tgtLen then .ok out else .error .appliedSizeMismatch) := by
  rw [apply_delta]
  simp only [List.append_assoc, parseVarint_encode]
  simp

/-- The delta produced by `create_delta` applies cleanly, reproducing
the target (spec §4.1, verified round-trip property). -/
theorem apply_create_delta (base target : List Nat) :
    apply_delta base (create_delta base target) = .ok target := by
  simp only [create_delta]
  rw [List.append_assoc, apply_delta_parts]
  have hple : min (commonPrefixLen base target) 65535 ≤ commonPrefixLen base target :=
    Nat.min_le_left _ _
  have hp65535 : min (commonPrefixLen base target) 65535 ≤ 65535 := Nat.min_le_right _ _
  have hpbase : min (commonPrefixLen base target) 65535 ≤ base.length :=
    le_trans hple (commonPrefixLen_le_left base target)
  by_cases hp : min (commonPrefixLen base target) 65535 = 0
  · rw [hp]
    simp only [List.drop_zero, ite_true, List.nil_append]
    rw [processInstrs_insertOps_final]
    simp
  · rw [if_neg hp]
    rw [processInstrs_copy base 0 _ _ [] (by omega) (by omega) (by omega)]
    rw [if_neg (by omega)]
    simp only [List.drop_zero, List.nil_append]
    rw [processInstrs_insertOps_final]
    have htk : base.take (min (commonPrefixLen base target) 65535) =
        target.take (min (commonPrefixLen base target) 65535) :=
      take_eq_of_le_commonPrefixLen base target _ hple
    rw [htk, List.take_append_drop]
    simp

/-- Bytes of a string literal, for concrete test vectors. -/
def byteStr (s : String) : List Nat := s.data.map Char.toNat

/-- C1: for every pair of byte strings `(base, target)`, applying the
delta produced by `create_delta base target` to `base` reconstructs
`target` exactly. -/
theorem delta_roundtrip (base target : List Nat)
    (hb : ∀ x ∈ base, x < 256) (ht : ∀ x ∈ target, x < 256) :
    apply_delta base (create_delta base target) = .ok target :=
  apply_create_delta base target

/-- C1 witness: the round-trip at the spec's concrete scenario,
`base = "The answer was flailing in the wind"`,
`target = "The answer was falling down the pipe"`. -/
theorem delta_roundtrip_witness :
    (∀ x ∈ byteStr "The answer was flailing in the wind", x < 256) ∧
    (∀ x ∈ byteStr "The answer was falling down the pipe", x < 256) ∧
    apply_delta (byteStr "The answer was flailing in the wind")
        (create_delta (byteStr "The answer was flailing in the wind")
          (byteStr "The answer was falling down the pipe")) =
      .ok (byteStr "The answer was falling down the pipe") :=
  ⟨by decide, by decide,
    delta_roundtrip (byteStr "The answer was flailing in the wind")
      (byteStr "The answer was falling down the pipe") (by decide) (by decide)⟩

/-- C7: applying a delta fails with `invalidOpcode` whenever the
instruction stream reaches the reserved opcode byte `0`, and fails with
`copyOutOfRange` whenever a copy instruction addresses a range that
exceeds the source length — for every base string and every such
malformed delta. -/
theorem apply_delta_malformed (base rest : List Nat) (declaredTgt off sz : Nat)
    (hoff : off < 4294967296) (hsz1 : 1 ≤ sz) (hsz2 : sz < 16777216)
    (hrange : base.length < off + sz) :
    apply_delta base
        (encodeVarint base.length ++ encodeVarint declaredTgt ++ 0 :: rest) =
      .error .invalidOpcode ∧
    apply_delta base
        (encodeVarint base.length ++ encodeVarint declaredTgt ++ encodeCopy off sz ++ rest) =
      .error .copyOutOfRange := by
  constructor
  · rw [apply_delta_parts]
    rw [processInstrs_cons, if_pos rfl]
  · rw [List.append_assoc (encodeVarint base.length ++ encodeVarint declaredTgt),
      apply_delta_parts]
    rw [processInstrs_copy base off sz rest [] hoff hsz1 hsz2]
    rw [if_pos (by omega)]

/-- C7 witness: the malformed-delta failures at the concrete input from
the test suite (`base = b""`, copy of `0x1111` bytes from an empty
source; opcode `0` stream). -/
theorem apply_delta_malformed_witness :
    0 < 4294967296 ∧ 1 ≤ 4369 ∧ 4369 < 16777216 ∧ ([] : List Nat).length < 0 + 4369 ∧
    (apply_delta [] (encodeVarint 0 ++ encodeVarint 256 ++ 0 :: []) =
      .error .invalidOpcode ∧
    apply_delta [] (encodeVarint 0 ++ encodeVarint 256 ++ encodeCopy 0 4369 ++ []) =
      .error .copyOutOfRange) :=
  ⟨by decide, by decide, by decide, by decide,
    apply_delta_malformed [] [] 256 0 4369 (by decide) (by decide) (by decide) (by decide)⟩

/-! ## Pack and index trailer checksums (spec §4.3/§4.4)

Modelled from the spec: `PackData.check` / `PackIndex.check` are in
`dulwich/pack.py`, which is not among the available sources.  A pack or
index file carries a 20-byte SHA-1 trailer over all preceding bytes;
`check()` recomputes that digest and compares.  The SHA-1 digest itself
is computed by the Python standard library (`hashlib`), so it enters the
model as a function parameter `sha1`. -/

inductive PackFileError where
  | checksumMismatch
  deriving DecidableEq, Repr

/-- `check()`: recompute the trailer digest over all bytes but the last
20 and compare it with the stored trailer (spec §4.3/§8 property 3). -/
def checkTrailer (sha1 : List Nat → List Nat) (file : List Nat) :
    Except PackFileError Unit :=
  if file.drop (file.length - 20) = sha1 (file.take (file.length - 20)) then .ok ()
  else .error .checksumMismatch

/-- A pack (or index) file as produced by the writer: contents followed
by the 20-byte digest of those contents (spec §2 integrity model). -/
def fileWithTrailer (sha1 : List Nat → List Nat) (content : List Nat) : List Nat :=
  content ++ sha1 content

/-- C4: `check()` succeeds exactly when the file's trailing 20 bytes
equal the digest of all preceding bytes; in particular a file written
with the correct trailer passes, and a file whose trailer bytes are
altered fails with `checksumMismatch`. -/
theorem checkTrailer_iff (sha1 : List Nat → List Nat) (content trailer : List Nat)
    (hlen : trailer.length = 20) :
    (checkTrailer sha1 (content ++ trailer) = .ok () ↔ trailer = sha1 content) ∧
    (trailer ≠ sha1 content →
      checkTrailer sha1 (content ++ trailer) = .error .checksumMismatch) := by
  have hdrop : (content ++ trailer).drop ((content ++ trailer).length - 20) = trailer := by
    have h1 : (content ++ trailer).length - 20 = content.length := by
      simp [List.length_append]
      omega
    rw [h1, List.drop_left]
  have htake : (content ++ trailer).take ((content ++ trailer).length - 20) = content := by
    have h1 : (content ++ trailer).length - 20 = content.length := by
      simp [List.length_append]
      omega
    rw [h1, List.take_left]
  constructor
  · constructor
    · intro h
      by_contra hne
      rw [checkTrailer, hdrop, htake, if_neg hne] at h
      exact absurd h (by simp)
    · intro h
      rw [checkTrailer, hdrop, htake, if_pos h]
  · intro hne
    rw [checkTrailer, hdrop, htake, if_neg hne]

/-- C4 witness: a concrete file whose 20 trailer bytes match the digest
passes `check()`, and the altered-trailer file fails with
`checksumMismatch`. -/
theorem checkTrailer_iff_witness :
    (List.replicate 20 7).length = 20 ∧
    checkTrailer (fun _ => List.replicate 20 7) ([1, 2, 3] ++ List.replicate 20 7) =
      .ok () ∧
    (List.replicate 20 255 ≠ (fun _ => List.replicate 20 7) [1, 2, 3] →
      checkTrailer (fun _ => List.replicate 20 7) ([1, 2, 3] ++ List.replicate 20 255) =
        .error .checksumMismatch) :=
  ⟨by decide,
    (checkTrailer_iff (fun _ => List.replicate 20 7) [1, 2, 3] (List.replicate 20 7)
      (by decide)).1.mpr (by decide),
    (checkTrailer_iff (fun _ => List.replicate 20 7) [1, 2, 3] (List.replicate 20 255)
      (by decide)).2⟩

/-! ## `dulwich/repo.py`: graftpoints, parents provider, shallow set

These definitions are translated from `src/dulwich/repo.py`.  Object ids
are byte strings (`List Nat`); Python dicts become association lists in
insertion order; Python sets become lists read up to membership. -/

inductive RepoError where
  | invalidGraftpoint
  | indexError
  deriving DecidableEq, Repr

/-- Python `bytes` whitespace (as used by `bytes.split` with no
separator): space, tab, newline, carriage return, vertical tab, form
feed. -/
def isPySpace (b : Nat) : Bool :=
  b == 32 || b == 9 || b == 10 || b == 13 || b == 11 || b == 12

/-- Python `line.split(None, 1)`: strip leading whitespace, take the
first whitespace-free token, then the remainder with its leading
whitespace stripped (dropped entirely when empty). -/
def splitNone1 (l : List Nat) : List (List Nat) :=
  let l1 := l.dropWhile isPySpace
  if l1 = [] then []
  else
    let tok := l1.takeWhile (fun b => !isPySpace b)
    let rest := (l1.dropWhile (fun b => !isPySpace b)).dropWhile isPySpace
    if rest = [] then [tok] else [tok, rest]

/-- Python `s.split()`: all whitespace-separated tokens. -/
def splitAll (l : List Nat) : List (List Nat) :=
  match h : l.dropWhile isPySpace with
  | [] => []
  | x :: xs =>
    (x :: xs).takeWhile (fun b => !isPySpace b) ::
      splitAll ((x :: xs).dropWhile (fun b => !isPySpace b))
  termination_by l.length
  decreasing_by
    have hlenle : ∀ (p : Nat → Bool) (t : List Nat), (t.dropWhile p).length ≤ t.length := by
      intro p t
      induction t with
      | nil => simp
      | cons y ys ih =>
        rw [List.dropWhile_cons]
        by_cases hy : p y
        · simp only [hy, if_true, List.length_cons]
          omega
        · simp [hy]
    have hhead : isPySpace x = false := by
      clear hlenle
      induction l with
      | nil => simp [List.dropWhile] at h
      | cons y ys ih =>
        rw [List.dropWhile_cons] at h
        by_cases hy : isPySpace y
        · rw [if_pos hy] at h
          exact ih h
        · rw [if_neg hy] at h
          cases h
          simpa using hy
    have h1 : (x :: xs).length ≤ l.length := by
      rw [← h]
      exact hlenle isPySpace l
    rw [List.dropWhile_cons]
    simp only [hhead, Bool.not_false, if_true]
    have h2 := hlenle (fun b => !isPySpace b) xs
    simp only [List.length_cons] at h1
    omega

/-- Python `bytes.split(sep)` for a single separator byte: exact split,
keeping empty pieces. -/
def splitOnByte (sep : Nat) : List Nat → List (List Nat)
  | [] => [[]]
  | b :: rest =>
    match splitOnByte sep rest with
    | [] => if b = sep then [[], []] else [[b]]
    | h :: t => if b = sep then [] :: h :: t else (b :: h) :: t

/-- Modelled from the spec: `check_hexsha` lives in `dulwich/objects.py`
(not among the sources); it rejects any sha that is not a 40-character
hexadecimal string. -/
def valid_hexsha (s : List Nat) : Bool :=
  s.length == 40 &&
    s.all (fun b => (48 ≤ b && b ≤ 57) || (97 ≤ b && b ≤ 102) || (65 ≤ b && b ≤ 70))

/-- Python dict assignment `d[k] = v` on an insertion-ordered
association list: overwrite in place if the key exists, else append. -/
def dictInsert (d : List (List Nat × List (List Nat))) (k : List Nat)
    (v : List (List Nat)) : List (List Nat × List (List Nat)) :=
  if (d.find? (fun e => e.1 = k)).isSome then
    d.map (fun e => if e.1 = k then (k, v) else e)
  else d ++ [(k, v)]

/-- One line of `parse_graftpoints`: split off the commit sha, split the
rest into parent shas, validate every sha. -/
def parseGraftLine (line : List Nat) :
    Except RepoError (List Nat × List (List Nat)) :=
  match splitNone1 line with
  | [] => .error .indexError
  | [commit] =>
    if valid_hexsha commit then .ok (commit, []) else .error .invalidGraftpoint
  | commit :: restTok :: _ =>
    let parents := splitAll restTok
    if valid_hexsha commit && parents.all valid_hexsha then .ok (commit, parents)
    else .error .invalidGraftpoint

/-- `parse_graftpoints` (from `src/dulwich/repo.py`): convert graftpoint
lines into a commit-to-parents mapping, validating every sha. -/
def parse_graftpoints (lines : List (List Nat)) :
    Except RepoError (List (List Nat × List (List Nat))) :=
  let rec go (acc : List (List Nat × List (List Nat))) :
      List (List Nat) → Except RepoError (List (List Nat × List (List Nat)))
    | [] => .ok acc
    | line :: rest =>
      match parseGraftLine line with
      | .error e => .error e
      | .ok (commit, parents) => go (dictInsert acc commit parents) rest
  go [] lines

/-- Python `sep.join(pieces)`. -/
def joinWith (sep : List Nat) : List (List Nat) → List Nat
  | [] => []
  | [x] => x
  | x :: y :: rest => x ++ sep ++ joinWith sep (y :: rest)

/-- `serialize_graftpoints` (from `src/dulwich/repo.py`): one line per
commit, `<commit> <parent> <parent>…`, lines joined by `\n`. -/
def serialize_graftpoints (g : List (List Nat × List (List Nat))) : List Nat :=
  joinWith [10]
    (g.map (fun e =>
      if e.2 = [] then e.1 else e.1 ++ [32] ++ joinWith [32] e.2))

/-- The shas appearing on a graftpoint line, in validation order:
the commit sha, then the parent shas. -/
def graftLineTokens (line : List Nat) : List (List Nat) :=
  match splitNone1 line with
  | [] => []
  | [c] => [c]
  | c :: r :: _ => c :: splitAll r

/-- `ParentsProvider` (from `src/dulwich/repo.py`): resolves the parents
of a commit, honouring grafts and shallow points.  `store` maps a commit
id to the parent list recorded in the stored commit object;
`commit_graph` is the optional commit-graph accelerator obtained from
the store at construction time. -/
structure ParentsProvider where
  store : List Nat → List (List Nat)
  grafts : List (List Nat × List (List Nat))
  shallows : List (List Nat)
  commit_graph : Option (List Nat → Option (List (List Nat)))

/-- `ParentsProvider.get_parents` (from `src/dulwich/repo.py`): grafts
first, then the shallow cut-off, then the commit graph when it knows the
commit, finally the commit object itself (the `commit` argument, or the
store lookup when absent). -/
def get_parents (pp : ParentsProvider) (commit_id : List Nat)
    (commit : Option (List (List Nat))) : List (List Nat) :=
  match pp.grafts.find? (fun e => e.1 = commit_id) with
  | some e => e.2
  | none =>
    if commit_id ∈ pp.shallows then []
    else
      let fromCommitObj :=
        match commit with
        | some c => c
        | none => pp.store commit_id
      match pp.commit_graph with
      | some graph =>
        match graph commit_id with
        | some parents => parents
        | none => fromCommitObj
      | none => fromCommitObj

/-- `BaseRepo.get_shallow` (from `src/dulwich/repo.py`): the set of
shallow commits, read from the `shallow` named file; an absent file
means the empty set.  The file is modelled as its list of lines
(`none` = absent), and the Python `set` as that list up to membership
(`dedup`). -/
def get_shallow (file : Option (List (List Nat))) : List (List Nat) :=
  match file with
  | none => []
  | some lines => lines.dedup

/-- The set computed inside `update_shallow`: union with the new
shallow ids (skipped when empty, like the Python `if new_shallow:`
guard), then removal of the new unshallow ids. -/
def shallowResult (shallow new_shallow new_unshallow : List (List Nat)) :
    List (List Nat) :=
  let s1 := if new_shallow = [] then shallow else (shallow ++ new_shallow).dedup
  if new_unshallow = [] then s1 else s1.filter (fun x => x ∉ new_unshallow)

/-- `BaseRepo.update_shallow` (from `src/dulwich/repo.py`): add
`new_shallow`, remove `new_unshallow`, write the result back, deleting
the file when the resulting set is empty.  Returns the new file
state. -/
def update_shallow (file : Option (List (List Nat)))
    (new_shallow new_unshallow : List (List Nat)) : Option (List (List Nat)) :=
  let s2 := shallowResult (get_shallow file) new_shallow new_unshallow
  if s2 = [] then none else some s2

/-! ### Theorems for `repo.py` -/

/-- C8: for every commit id queried through the parents provider, a
graft entry wins (even over shallow status), otherwise a shallow commit
reports no parents, otherwise the commit graph answers when it knows the
commit, and failing all that the parents recorded in the commit object
(the `commit` argument, or the store lookup) are returned. -/
theorem get_parents_spec (pp : ParentsProvider) (cid : List Nat)
    (c : Option (List (List Nat))) :
    (∀ e, pp.grafts.find? (fun x => x.1 = cid) = some e →
      get_parents pp cid c = e.2) ∧
    (pp.grafts.find? (fun x => x.1 = cid) = none → cid ∈ pp.shallows →
      get_parents pp cid c = []) ∧
    (pp.grafts.find? (fun x => x.1 = cid) = none → cid ∉ pp.shallows →
      ∀ graph ps, pp.commit_graph = some graph → graph cid = some ps →
        get_parents pp cid c = ps) ∧
    (pp.grafts.find? (fun x => x.1 = cid) = none → cid ∉ pp.shallows →
      (pp.commit_graph = none ∨
        (∃ graph, pp.commit_graph = some graph ∧ graph cid = none)) →
      get_parents pp cid c =
        (match c with
          | some x => x
          | none => pp.store cid)) := by
  refine ⟨?_, ?_, ?_, ?_⟩
  · intro e he
    rw [get_parents.eq_def, he]
  · intro hn hs
    rw [get_parents.eq_def, hn]
    simp only [if_pos hs]
  · intro hn hs graph ps hg hps
    rw [get_parents.eq_def, hn]
    simp only [if_neg hs, hg, hps]
  · intro hn hs hnog
    rw [get_parents.eq_def, hn]
    simp only [if_neg hs]
    rcases hnog with hnone | ⟨graph, hg, hmiss⟩
    · simp only [hnone]
    · simp only [hg, hmiss]

/-- C8 witness: a commit with a graft entry that is also listed as
shallow gets its grafted parents — grafts take precedence. -/
theorem get_parents_spec_witness :
    ((ParentsProvider.mk (fun _ => []) [([1], [[2], [3]])] [[1]] none).grafts.find?
        (fun x => x.1 = [1]) = some ([1], [[2], [3]])) ∧
    get_parents (ParentsProvider.mk (fun _ => []) [([1], [[2], [3]])] [[1]] none)
        [1] none = [[2], [3]] :=
  ⟨by decide,
    (get_parents_spec (ParentsProvider.mk (fun _ => []) [([1], [[2], [3]])] [[1]] none)
        [1] none).1 ([1], [[2], [3]]) (by decide)⟩

/-- C10: after `update_shallow new_shallow new_unshallow`, the shallow
set read back is exactly `(previous ∪ new_shallow) \ new_unshallow`, and
the file is deleted (state `none`, read back as the empty set) exactly
when that set is empty. -/
theorem mem_shallowResult (shallow ns nu : List (List Nat)) (x : List Nat) :
    x ∈ shallowResult shallow ns nu ↔ ((x ∈ shallow ∨ x ∈ ns) ∧ x ∉ nu) := by
  rw [shallowResult]
  by_cases hns : ns = [] <;> by_cases hnu : nu = [] <;>
    simp [hns, hnu, List.mem_dedup, List.mem_filter] <;> tauto

theorem update_shallow_eq (file : Option (List (List Nat)))
    (ns nu : List (List Nat)) :
    update_shallow file ns nu =
      if shallowResult (get_shallow file) ns nu = [] then none
      else some (shallowResult (get_shallow file) ns nu) := rfl

theorem update_shallow_spec (file : Option (List (List Nat)))
    (ns nu : List (List Nat)) :
    (∀ x, x ∈ get_shallow (update_shallow file ns nu) ↔
      ((x ∈ get_shallow file ∨ x ∈ ns) ∧ x ∉ nu)) ∧
    (update_shallow file ns nu = none ↔
      ∀ x, ¬((x ∈ get_shallow file ∨ x ∈ ns) ∧ x ∉ nu)) := by
  constructor
  · intro x
    rw [update_shallow_eq]
    by_cases h2 : shallowResult (get_shallow file) ns nu = []
    · rw [if_pos h2]
      simp only [get_shallow]
      constructor
      · intro hx
        exact absurd hx (List.not_mem_nil x)
      · intro hx
        have := (mem_shallowResult (get_shallow file) ns nu x).mpr hx
        rw [h2] at this
        exact absurd this (List.not_mem_nil x)
    · rw [if_neg h2]
      simp only [get_shallow, List.mem_dedup]
      exact mem_shallowResult (get_shallow file) ns nu x
  · rw [update_shallow_eq]
    by_cases h2 : shallowResult (get_shallow file) ns nu = []
    · rw [if_pos h2]
      constructor
      · intro _ x hx
        have := (mem_shallowResult (get_shallow file) ns nu x).mpr hx
        rw [h2] at this
        exact absurd this (List.not_mem_nil x)
      · intro _
        rfl
    · rw [if_neg h2]
      constructor
      · intro h
        exact absurd h (by simp)
      · intro hall
        exfalso
        apply h2
        rw [List.eq_nil_iff_forall_not_mem]
        intro x hx
        exact hall x ((mem_shallowResult (get_shallow file) ns nu x).mp hx)

/-! ### Graftpoint (de)serialization lemmas (C9) -/

theorem splitOnByte_ne_nil (sep : Nat) (l : List Nat) : splitOnByte sep l ≠ [] := by
  induction l with
  | nil => simp [splitOnByte]
  | cons b rest ih =>
    rw [splitOnByte]
    cases hr : splitOnByte sep rest with
    | nil => by_cases hb : b = sep <;> simp [hb]
    | cons h t => by_cases hb : b = sep <;> simp [hb]

theorem splitOnByte_no_sep (sep : Nat) (s : List Nat) (h : sep ∉ s) :
    splitOnByte sep s = [s] := by
  induction s with
  | nil => rfl
  | cons b rest ih =>
    have hb : b ≠ sep := fun hc => h (by rw [hc]; exact List.mem_cons_self _ _)
    have hrest : sep ∉ rest := fun hc => h (List.mem_cons_of_mem _ hc)
    rw [splitOnByte, ih hrest]
    simp [hb]

theorem splitOnByte_append_sep (sep : Nat) (s t : List Nat) (h : sep ∉ s) :
    splitOnByte sep (s ++ sep :: t) = s :: splitOnByte sep t := by
  induction s with
  | nil =>
    rw [List.nil_append, splitOnByte]
    cases hr : splitOnByte sep t with
    | nil => exact absurd hr (splitOnByte_ne_nil sep t)
    | cons x xs => simp
  | cons b rest ih =>
    have hb : b ≠ sep := fun hc => h (by rw [hc]; exact List.mem_cons_self _ _)
    have hrest : sep ∉ rest := fun hc => h (List.mem_cons_of_mem _ hc)
    rw [List.cons_append, splitOnByte, ih hrest]
    simp [hb]

theorem splitOnByte_joinWith (ls : List (List Nat)) (h : ls ≠ [])
    (hno : ∀ s ∈ ls, (10 : Nat) ∉ s) :
    splitOnByte 10 (joinWith [10] ls) = ls := by
  induction ls with
  | nil => exact absurd rfl h
  | cons x rest ih =>
    cases rest with
    | nil =>
      rw [joinWith]
      exact splitOnByte_no_sep 10 x (hno x (List.mem_cons_self _ _))
    | cons y tl =>
      rw [joinWith]
      have hx10 : (10 : Nat) ∉ x := hno x (List.mem_cons_self _ _)
      have hshape : x ++ [10] ++ joinWith [10] (y :: tl) =
          x ++ 10 :: joinWith [10] (y :: tl) := by
        rw [List.append_assoc]
        rfl
      rw [hshape, splitOnByte_append_sep 10 x _ hx10]
      rw [ih (by simp) (fun s hs => hno s (List.mem_cons_of_mem _ hs))]

theorem dropWhile_isPySpace_self (s : List Nat)
    (h : ∀ b ∈ s, isPySpace b = false) : s.dropWhile isPySpace = s := by
  cases s with
  | nil => rfl
  | cons b rest =>
    rw [List.dropWhile_cons, h b (List.mem_cons_self _ _)]
    simp

theorem takeWhile_nonspace_append (s r : List Nat)
    (h : ∀ b ∈ s, isPySpace b = false) :
    (s ++ 32 :: r).takeWhile (fun b => !isPySpace b) = s := by
  induction s with
  | nil =>
    rw [List.nil_append, List.takeWhile_cons]
    norm_num [isPySpace]
  | cons b rest ih =>
    rw [List.cons_append, List.takeWhile_cons, h b (List.mem_cons_self _ _)]
    rw [ih (fun x hx => h x (List.mem_cons_of_mem _ hx))]
    simp

theorem dropWhile_nonspace_append (s r : List Nat)
    (h : ∀ b ∈ s, isPySpace b = false) :
    (s ++ 32 :: r).dropWhile (fun b => !isPySpace b) = 32 :: r := by
  induction s with
  | nil =>
    rw [List.nil_append, List.dropWhile_cons]
    norm_num [isPySpace]
  | cons b rest ih =>
    rw [List.cons_append, List.dropWhile_cons, h b (List.mem_cons_self _ _)]
    rw [ih (fun x hx => h x (List.mem_cons_of_mem _ hx))]
    simp

theorem takeWhile_nonspace_self (s : List Nat)
    (h : ∀ b ∈ s, isPySpace b = false) :
    s.takeWhile (fun b => !isPySpace b) = s := by
  induction s with
  | nil => rfl
  | cons b rest ih =>
    rw [List.takeWhile_cons, h b (List.mem_cons_self _ _)]
    rw [ih (fun x hx => h x (List.mem_cons_of_mem _ hx))]
    simp

theorem dropWhile_nonspace_self (s : List Nat)
    (h : ∀ b ∈ s, isPySpace b = false) :
    s.dropWhile (fun b => !isPySpace b) = [] := by
  induction s with
  | nil => rfl
  | cons b rest ih =>
    rw [List.dropWhile_cons, h b (List.mem_cons_self _ _)]
    rw [ih (fun x hx => h x (List.mem_cons_of_mem _ hx))]
    simp

theorem splitNone1_single (s : List Nat) (hne : s ≠ [])
    (h : ∀ b ∈ s, isPySpace b = false) : splitNone1 s = [s] := by
  rw [splitNone1]
  simp only [dropWhile_isPySpace_self s h, if_neg hne]
  rw [takeWhile_nonspace_self s h, dropWhile_nonspace_self s h]
  simp [List.dropWhile]

theorem splitNone1_pair (c r : List Nat) (hc : c ≠ [])
    (hcall : ∀ b ∈ c, isPySpace b = false)
    (hr : r.dropWhile isPySpace = r) (hrne : r ≠ []) :
    splitNone1 (c ++ 32 :: r) = [c, r] := by
  rw [splitNone1]
  have hdw : (c ++ 32 :: r).dropWhile isPySpace = c ++ 32 :: r := by
    cases c with
    | nil => exact absurd rfl hc
    | cons b cs =>
      rw [List.cons_append, List.dropWhile_cons, hcall b (List.mem_cons_self _ _)]
      simp
  simp only [hdw, if_neg (by simp : ¬(c ++ 32 :: r = []))]
  rw [takeWhile_nonspace_append c r hcall, dropWhile_nonspace_append c r hcall]
  rw [List.dropWhile_cons]
  have h32 : isPySpace 32 = true := rfl
  rw [h32]
  simp only [if_true, hr, if_neg hrne]

theorem splitAll_eq_nil (l : List Nat) (h : l.dropWhile isPySpace = []) :
    splitAll l = [] := by
  rw [splitAll.eq_def, h]

theorem splitAll_eq_cons (l : List Nat) (x : Nat) (xs : List Nat)
    (h : l.dropWhile isPySpace = x :: xs) :
    splitAll l = (x :: xs).takeWhile (fun b => !isPySpace b) ::
      splitAll ((x :: xs).dropWhile (fun b => !isPySpace b)) := by
  rw [splitAll.eq_def, h]

/-- `joinWith sep (q :: tl)` always starts with `q`. -/
theorem joinWith_cons_shape (sep : List Nat) (q : List Nat) (tl : List (List Nat)) :
    ∃ t, joinWith sep (q :: tl) = q ++ t := by
  cases tl with
  | nil => exact ⟨[], by simp [joinWith]⟩
  | cons y rest => exact ⟨sep ++ joinWith sep (y :: rest), by simp [joinWith]⟩

theorem splitAll_joinWith (ps : List (List Nat)) (h : ps ≠ [])
    (hall : ∀ p ∈ ps, p ≠ [] ∧ ∀ b ∈ p, isPySpace b = false) :
    splitAll (joinWith [32] ps) = ps := by
  induction ps with
  | nil => exact absurd rfl h
  | cons p rest ih =>
    obtain ⟨hpne, hpns⟩ := hall p (List.mem_cons_self _ _)
    cases rest with
    | nil =>
      rw [joinWith]
      cases hp : p with
      | nil => exact absurd hp hpne
      | cons x xs =>
        subst hp
        rw [splitAll_eq_cons (x :: xs) x xs (dropWhile_isPySpace_self _ hpns)]
        rw [takeWhile_nonspace_self _ hpns, dropWhile_nonspace_self _ hpns]
        rw [splitAll_eq_nil [] rfl]
    | cons q tl =>
      rw [joinWith]
      obtain ⟨hqne, hqns⟩ := hall q (List.mem_cons_of_mem _ (List.mem_cons_self _ _))
      have hJ : ∀ b, ∀ bs, joinWith [32] (q :: tl) = b :: bs → isPySpace b = false := by
        intro b bs hj
        obtain ⟨t, ht⟩ := joinWith_cons_shape [32] q tl
        rw [ht] at hj
        cases hq : q with
        | nil => exact absurd hq hqne
        | cons z zs =>
          subst hq
          rw [List.cons_append] at hj
          injection hj with h1 h2
          rw [← h1]
          exact hqns z (List.mem_cons_self _ _)
      have hshape : p ++ [32] ++ joinWith [32] (q :: tl) =
          p ++ 32 :: joinWith [32] (q :: tl) := by
        rw [List.append_assoc]
        rfl
      rw [hshape]
      have hJne : joinWith [32] (q :: tl) ≠ [] := by
        obtain ⟨t, ht⟩ := joinWith_cons_shape [32] q tl
        rw [ht]
        cases hq : q with
        | nil => exact absurd hq hqne
        | cons z zs => simp
      obtain ⟨jb, jbs, hjeq⟩ : ∃ b bs, joinWith [32] (q :: tl) = b :: bs := by
        cases hj : joinWith [32] (q :: tl) with
        | nil => exact absurd hj hJne
        | cons b bs => exact ⟨b, bs, rfl⟩
      have hjb : isPySpace jb = false := hJ jb jbs hjeq
      have hdwJ : (joinWith [32] (q :: tl)).dropWhile isPySpace =
          joinWith [32] (q :: tl) := by
        rw [hjeq, List.dropWhile_cons, hjb]
        simp
      have hdwfull : (p ++ 32 :: joinWith [32] (q :: tl)).dropWhile isPySpace =
          p ++ 32 :: joinWith [32] (q :: tl) := by
        cases hp : p with
        | nil => exact absurd hp hpne
        | cons z zs =>
          subst hp
          rw [List.cons_append, List.dropWhile_cons, hpns z (List.mem_cons_self _ _)]
          simp
      obtain ⟨fb, fbs, hfeq⟩ : ∃ b bs, p ++ 32 :: joinWith [32] (q :: tl) = b :: bs := by
        cases hp : p with
        | nil => exact absurd hp hpne
        | cons z zs => exact ⟨z, zs ++ 32 :: joinWith [32] (q :: tl), by simp [hp]⟩
      rw [splitAll_eq_cons _ fb fbs (by rw [hdwfull, hfeq])]
      rw [← hfeq]
      rw [takeWhile_nonspace_append p _ hpns, dropWhile_nonspace_append p _ hpns]
      have hdw32 : (32 :: joinWith [32] (q :: tl)).dropWhile isPySpace =
          jb :: jbs := by
        rw [List.dropWhile_cons]
        have h32 : isPySpace 32 = true := rfl
        rw [h32]
        simp only [if_true]
        rw [hdwJ, hjeq]
      rw [splitAll_eq_cons _ jb jbs hdw32]
      rw [← splitAll_eq_cons (joinWith [32] (q :: tl)) jb jbs (by rw [hdwJ, hjeq])]
      rw [ih (by simp) (fun x hx => hall x (List.mem_cons_of_mem _ hx))]

theorem valid_hexsha_bytes (s : List Nat) (h : valid_hexsha s = true) :
    s ≠ [] ∧ ∀ b ∈ s, isPySpace b = false ∧ b ≠ 10 := by
  rw [valid_hexsha, Bool.and_eq_true, beq_iff_eq, List.all_eq_true] at h
  constructor
  · intro hnil
    rw [hnil] at h
    simp at h
  · intro b hb
    have hx := h.2 b hb
    simp only [Bool.or_eq_true, Bool.and_eq_true, decide_eq_true_eq] at hx
    constructor
    · simp only [isPySpace, Bool.or_eq_false_iff, beq_eq_false_iff_ne, ne_eq]
      omega
    · omega

theorem parseGraftLine_serialized (c : List Nat) (ps : List (List Nat))
    (hc : valid_hexsha c = true) (hps : ∀ p ∈ ps, valid_hexsha p = true) :
    parseGraftLine (if ps = [] then c else c ++ [32] ++ joinWith [32] ps) =
      .ok (c, ps) := by
  obtain ⟨hcne, hcb⟩ := valid_hexsha_bytes c hc
  have hcns : ∀ b ∈ c, isPySpace b = false := fun b hb => (hcb b hb).1
  by_cases hpsnil : ps = []
  · subst hpsnil
    rw [if_pos rfl, parseGraftLine, splitNone1_single c hcne hcns]
    simp [hc]
  · rw [if_neg hpsnil]
    have hshape : c ++ [32] ++ joinWith [32] ps = c ++ 32 :: joinWith [32] ps := by
      rw [List.append_assoc]
      rfl
    obtain ⟨q, tl, hq⟩ : ∃ q tl, ps = q :: tl := by
      cases hp : ps with
      | nil => exact absurd hp hpsnil
      | cons q tl => exact ⟨q, tl, rfl⟩
    obtain ⟨hqne, hqb⟩ := valid_hexsha_bytes q (hps q (by rw [hq]; exact List.mem_cons_self _ _))
    have hJne : joinWith [32] ps ≠ [] := by
      rw [hq]
      obtain ⟨t, ht⟩ := joinWith_cons_shape [32] q tl
      rw [ht]
      cases hqq : q with
      | nil => exact absurd hqq hqne
      | cons z zs => simp
    have hJdw : (joinWith [32] ps).dropWhile isPySpace = joinWith [32] ps := by
      rw [hq]
      obtain ⟨t, ht⟩ := joinWith_cons_shape [32] q tl
      rw [ht]
      cases hqq : q with
      | nil => exact absurd hqq hqne
      | cons z zs =>
        subst hqq
        rw [List.cons_append, List.dropWhile_cons,
          (hqb z (List.mem_cons_self _ _)).1]
        simp
    have hsp : splitAll (joinWith [32] ps) = ps := by
      apply splitAll_joinWith ps hpsnil
      intro p hp
      obtain ⟨hpne, hpb⟩ := valid_hexsha_bytes p (hps p hp)
      exact ⟨hpne, fun b hb => (hpb b hb).1⟩
    have hall : ps.all valid_hexsha = true := by
      rw [List.all_eq_true]
      exact hps
    rw [hshape, parseGraftLine, splitNone1_pair c _ hcne hcns hJdw hJne]
    simp [hsp, hc, hall]

theorem dictInsert_fresh (d : List (List Nat × List (List Nat))) (k : List Nat)
    (v : List (List Nat)) (h : ∀ e ∈ d, e.1 ≠ k) :
    dictInsert d k v = d ++ [(k, v)] := by
  rw [dictInsert]
  have hfind : d.find? (fun e => e.1 = k) = none := by
    rw [List.find?_eq_none]
    intro e he
    simp only [decide_eq_true_eq]
    exact h e he
  rw [hfind]
  simp

theorem mem_joinWith (sep : List Nat) (ls : List (List Nat)) (b : Nat)
    (h : b ∈ joinWith sep ls) : b ∈ sep ∨ ∃ s ∈ ls, b ∈ s := by
  induction ls with
  | nil => simp [joinWith] at h
  | cons x rest ih =>
    cases rest with
    | nil =>
      rw [joinWith] at h
      exact Or.inr ⟨x, List.mem_cons_self _ _, h⟩
    | cons y tl =>
      rw [joinWith] at h
      rcases List.mem_append.mp h with h1 | h2
      · rcases List.mem_append.mp h1 with h3 | h4
        · exact Or.inr ⟨x, List.mem_cons_self _ _, h3⟩
        · exact Or.inl h4
      · rcases ih h2 with h5 | ⟨s, hs, hbs⟩
        · exact Or.inl h5
        · exact Or.inr ⟨s, List.mem_cons_of_mem _ hs, hbs⟩

theorem parse_go_append (g : List (List Nat × List (List Nat))) :
    ∀ acc, (∀ x ∈ acc, ∀ e2 ∈ g, x.1 ≠ e2.1) →
    (g.map Prod.fst).Nodup →
    (∀ e ∈ g, valid_hexsha e.1 = true ∧ ∀ p ∈ e.2, valid_hexsha p = true) →
    parse_graftpoints.go acc
      (g.map (fun e => if e.2 = [] then e.1 else e.1 ++ [32] ++ joinWith [32] e.2)) =
      .ok (acc ++ g) := by
  induction g with
  | nil =>
    intro acc _ _ _
    simp [parse_graftpoints.go]
  | cons e g' ih =>
    intro acc hdisj hnd hval
    rw [List.map_cons, parse_graftpoints.go]
    obtain ⟨hc, hps⟩ := hval e (List.mem_cons_self _ _)
    simp only [parseGraftLine_serialized e.1 e.2 hc hps]
    rw [dictInsert_fresh acc e.1 e.2
      (fun x hx => hdisj x hx e (List.mem_cons_self _ _))]
    have hfresh : ∀ x ∈ acc ++ [(e.1, e.2)], ∀ e2 ∈ g', x.1 ≠ e2.1 := by
      intro x hx e2 he2
      rcases List.mem_append.mp hx with hxa | hxe
      · exact hdisj x hxa e2 (List.mem_cons_of_mem _ he2)
      · have hxeq : x = (e.1, e.2) := by simpa using hxe
        subst hxeq
        simp only
        rw [List.map_cons, List.nodup_cons] at hnd
        intro hcontra
        exact hnd.1 (hcontra ▸ List.mem_map_of_mem Prod.fst he2)
    have := ih (acc ++ [(e.1, e.2)]) hfresh
      (by rw [List.map_cons, List.nodup_cons] at hnd; exact hnd.2)
      (fun x hx => hval x (List.mem_cons_of_mem _ hx))
    rw [this]
    simp

theorem parseGraftLine_invalid (line : List Nat)
    (h : ∃ t ∈ graftLineTokens line, valid_hexsha t = false) :
    ∃ e, parseGraftLine line = .error e := by
  obtain ⟨t, ht, hbad⟩ := h
  rw [graftLineTokens] at ht
  rw [parseGraftLine]
  cases hsp : splitNone1 line with
  | nil =>
    rw [hsp] at ht
    exact absurd ht (List.not_mem_nil t)
  | cons c rest =>
    cases rest with
    | nil =>
      simp only [hsp] at ht ⊢
      have hteq : t = c := by simpa using ht
      subst hteq
      rw [hbad]
      exact ⟨.invalidGraftpoint, by simp⟩
    | cons r rest2 =>
      simp only [hsp] at ht ⊢
      refine ⟨.invalidGraftpoint, ?_⟩
      rw [if_neg ?hcond]
      case hcond =>
        intro hcond
        rw [Bool.and_eq_true, List.all_eq_true] at hcond
        rcases List.mem_cons.mp ht with rfl | hmem
        · rw [hcond.1] at hbad
          exact absurd hbad (by simp)
        · rw [hcond.2 t hmem] at hbad
          exact absurd hbad (by simp)

theorem parse_go_error (lines : List (List Nat)) :
    ∀ acc, (∃ line ∈ lines, ∃ t ∈ graftLineTokens line, valid_hexsha t = false) →
    ∃ err, parse_graftpoints.go acc lines = .error err := by
  induction lines with
  | nil =>
    intro acc h
    obtain ⟨l2, hl, _⟩ := h
    exact absurd hl (List.not_mem_nil l2)
  | cons line rest ih =>
    intro acc h
    rw [parse_graftpoints.go]
    cases hpl : parseGraftLine line with
    | error e => exact ⟨e, by simp only [hpl]⟩
    | ok cp =>
      obtain ⟨c1, p1⟩ := cp
      obtain ⟨l2, hl2, hbad⟩ := h
      rcases List.mem_cons.mp hl2 with rfl | hl2r
      · obtain ⟨e, he⟩ := parseGraftLine_invalid l2 hbad
        rw [he] at hpl
        exact absurd hpl (by simp)
      · obtain ⟨err, herr⟩ := ih (dictInsert acc c1 p1) ⟨l2, hl2r, hbad⟩
        exact ⟨err, by simp only [hpl]; exact herr⟩

/-- C9: serializing a non-empty graftpoint mapping of 40-hex shas and
parsing its lines back yields the same mapping; and `parse_graftpoints`
rejects any line that contains a non-hex sha. -/
theorem graftpoints_spec :
    (∀ g : List (List Nat × List (List Nat)), g ≠ [] →
      (g.map Prod.fst).Nodup →
      (∀ e ∈ g, valid_hexsha e.1 = true ∧ ∀ p ∈ e.2, valid_hexsha p = true) →
      parse_graftpoints (splitOnByte 10 (serialize_graftpoints g)) = .ok g) ∧
    (∀ lines : List (List Nat),
      (∃ line ∈ lines, ∃ t ∈ graftLineTokens line, valid_hexsha t = false) →
      ∃ err, parse_graftpoints lines = .error err) := by
  constructor
  · intro g hg hnd hval
    rw [serialize_graftpoints]
    rw [splitOnByte_joinWith _ (by simp [hg]) ?hno]
    case hno =>
      intro s hs
      obtain ⟨e, he, rfl⟩ := List.mem_map.mp hs
      obtain ⟨hc, hps⟩ := hval e he
      obtain ⟨_, hcb⟩ := valid_hexsha_bytes e.1 hc
      by_cases hpe : e.2 = []
      · rw [if_pos hpe]
        intro hmem
        exact (hcb 10 hmem).2 rfl
      · rw [if_neg hpe]
        intro hmem
        rcases List.mem_append.mp hmem with h1 | h2
        · rcases List.mem_append.mp h1 with h3 | h4
          · exact (hcb 10 h3).2 rfl
          · simp at h4
        · rcases mem_joinWith [32] e.2 10 h2 with h5 | ⟨s, hs2, hbs⟩
          · simp at h5
          · obtain ⟨_, hsb⟩ := valid_hexsha_bytes s (hps s hs2)
            exact (hsb 10 hbs).2 rfl
    rw [parse_graftpoints]
    have := parse_go_append g [] (by simp) hnd hval
    rw [this]
    simp
  · intro lines h
    rw [parse_graftpoints]
    exact parse_go_error lines [] h

/-- C9 witness: a concrete two-entry graft mapping round-trips, and a
line holding the non-hex sha `"x"` is rejected. -/
theorem graftpoints_spec_witness :
    ([(List.replicate 40 97, []),
      (List.replicate 40 98, [List.replicate 40 97])] ≠
        ([] : List (List Nat × List (List Nat)))) ∧
    parse_graftpoints (splitOnByte 10 (serialize_graftpoints
      [(List.replicate 40 97, []), (List.replicate 40 98, [List.replicate 40 97])])) =
      .ok [(List.replicate 40 97, []), (List.replicate 40 98, [List.replicate 40 97])] ∧
    (∃ err, parse_graftpoints [[120]] = .error err) :=
  ⟨by decide,
    graftpoints_spec.1
      [(List.replicate 40 97, []), (List.replicate 40 98, [List.replicate 40 97])]
      (by decide) (by decide) (by decide),
    graftpoints_spec.2 [[120]] (by decide)⟩

/-! ## Pack index versions 1, 2 and 3 (spec §4.4)

Modelled from the spec: the index writers and loaders live in
`dulwich/pack.py`, which is not among the available sources.  Layouts
follow spec §4.4: v1 is fanout + `(u32 offset, 20-byte sha)` records;
v2 adds the `\xfftOc` magic, a version field, separate sha/crc32/offset
tables and a large-offset table (offset words with the high bit set
index into it); v3 is v2 plus a hash-algorithm field (1 = SHA-1,
2 = SHA-256) and a shortened-oid-length field.  The index checksum
digest is again a function parameter. -/

structure IdxEntry where
  sha : List Nat
  offset : Nat
  crc : Nat
  deriving DecidableEq, Repr

inductive IdxError where
  | unsupportedHash
  | unknownHashAlgorithm
  deriving DecidableEq, Repr

/-- Big-endian 32-bit word. -/
def u32BE (n : Nat) : List Nat :=
  [n / 16777216 % 256, n / 65536 % 256, n / 256 % 256, n % 256]

/-- Big-endian 64-bit word. -/
def u64BE (n : Nat) : List Nat :=
  [n / 72057594037927936 % 256, n / 281474976710656 % 256,
   n / 1099511627776 % 256, n / 4294967296 % 256,
   n / 16777216 % 256, n / 65536 % 256, n / 256 % 256, n % 256]

/-- The 256-entry fanout table values: `fanout[b]` counts the entries
whose first id byte is `≤ b` (spec §4.4 fanout invariant). -/
def fanoutValues (entries : List IdxEntry) : List Nat :=
  (List.range 256).map
    (fun b => entries.countP (fun e => decide (e.sha.headD 0 ≤ b)))

/-- The fanout table as bytes. -/
def fanoutBytes (entries : List IdxEntry) : List Nat :=
  (fanoutValues entries).flatMap u32BE

/-- v1 index bytes: fanout, then `(u32 offset, sha)` records, then the
pack checksum and the index checksum. -/
def writeIndexV1 (h : List Nat → List Nat) (entries : List IdxEntry)
    (packChecksum : List Nat) : List Nat :=
  let body := fanoutBytes entries ++
    entries.flatMap (fun e => u32BE e.offset ++ e.sha) ++ packChecksum
  body ++ h body

/-- The v2/v3 offset-table words: offsets below `2^31` are stored
directly; larger ones store `2^31 + i` where `i` indexes the
large-offset table.  `k` is the number of large offsets already
assigned. -/
def offsetWords : List Nat → Nat → List Nat
  | [], _ => []
  | off :: rest, k =>
    if off < 2147483648 then off :: offsetWords rest k
    else (2147483648 + k) :: offsetWords rest (k + 1)

/-- The large offsets, in table order. -/
def largeOffsets : List Nat → List Nat
  | [] => []
  | off :: rest =>
    if off < 2147483648 then largeOffsets rest else off :: largeOffsets rest

/-- v2 index bytes: magic, version, fanout, sha table, crc32 table,
offset table, large-offset table, pack checksum, index checksum. -/
def writeIndexV2 (h : List Nat → List Nat) (entries : List IdxEntry)
    (packChecksum : List Nat) : List Nat :=
  let body := [255, 116, 79, 99] ++ u32BE 2 ++ fanoutBytes entries ++
    entries.flatMap (fun e => e.sha) ++
    entries.flatMap (fun e => u32BE e.crc) ++
    (offsetWords (entries.map (fun e => e.offset)) 0).flatMap u32BE ++
    (largeOffsets (entries.map (fun e => e.offset))).flatMap u64BE ++
    packChecksum
  body ++ h body

/-- v3 index bytes with SHA-1: v2 plus the hash-algorithm field (1) and
the shortened-oid-length field after the version. -/
def writeIndexV3Bytes (h : List Nat → List Nat) (entries : List IdxEntry)
    (packChecksum : List Nat) : List Nat :=
  let body := [255, 116, 79, 99] ++ u32BE 3 ++ u32BE 1 ++ u32BE 20 ++
    fanoutBytes entries ++
    entries.flatMap (fun e => e.sha) ++
    entries.flatMap (fun e => u32BE e.crc) ++
    (offsetWords (entries.map (fun e => e.offset)) 0).flatMap u32BE ++
    (largeOffsets (entries.map (fun e => e.offset))).flatMap u64BE ++
    packChecksum
  body ++ h body

/-- `write_pack_index_v3`: SHA-1 (algorithm 1) is written; SHA-256
(algorithm 2) is recognized but must fail with `unsupportedHash`
(spec §4.4); any other algorithm is unknown. -/
def write_pack_index_v3 (h : List Nat → List Nat) (hashAlgorithm : Nat)
    (entries : List IdxEntry) (packChecksum : List Nat) :
    Except IdxError (List Nat) :=
  if hashAlgorithm = 1 then .ok (writeIndexV3Bytes h entries packChecksum)
  else if hashAlgorithm = 2 then .error .unsupportedHash
  else .error .unknownHashAlgorithm

/-- Parse `n` big-endian 32-bit words. -/
def parseU32s : Nat → List Nat → Option (List Nat × List Nat)
  | 0, bs => some ([], bs)
  | n + 1, b3 :: b2 :: b1 :: b0 :: bs =>
    (parseU32s n bs).map
      (fun vr => ((16777216 * b3 + 65536 * b2 + 256 * b1 + b0) :: vr.1, vr.2))
  | _ + 1, _ => none

/-- Parse `n` big-endian 64-bit words. -/
def parseU64s : Nat → List Nat → Option (List Nat × List Nat)
  | 0, bs => some ([], bs)
  | n + 1, b7 :: b6 :: b5 :: b4 :: b3 :: b2 :: b1 :: b0 :: bs =>
    (parseU64s n bs).map
      (fun vr => ((72057594037927936 * b7 + 281474976710656 * b6 +
        1099511627776 * b5 + 4294967296 * b4 +
        16777216 * b3 + 65536 * b2 + 256 * b1 + b0) :: vr.1, vr.2))
  | _ + 1, _ => none

/-- Parse `n` 20-byte shas. -/
def parseShas : Nat → List Nat → Option (List (List Nat) × List Nat)
  | 0, bs => some ([], bs)
  | n + 1, bs =>
    if bs.length < 20 then none
    else (parseShas n (bs.drop 20)).map (fun sr => (bs.take 20 :: sr.1, sr.2))

/-- Parse `n` v1 records of `(u32 offset, 20-byte sha)`. -/
def parseV1Records : Nat → List Nat →
    Option (List (List Nat × Nat × Option Nat) × List Nat)
  | 0, bs => some ([], bs)
  | n + 1, b3 :: b2 :: b1 :: b0 :: bs =>
    if bs.length < 20 then none
    else (parseV1Records n (bs.drop 20)).map
      (fun er => ((bs.take 20, 16777216 * b3 + 65536 * b2 + 256 * b1 + b0,
        Option.none) :: er.1, er.2))
  | _ + 1, _ => none

/-- Resolve offset-table words against the large-offset table. -/
def decodeOffsets (words larges : List Nat) : List Nat :=
  words.map (fun w => if w < 2147483648 then w else larges.getD (w - 2147483648) 0)

/-- Zip the three v2 columns back into `(sha, offset, crc)` entries. -/
def zipEntries : List (List Nat) → List Nat → List Nat →
    List (List Nat × Nat × Option Nat)
  | s :: ss, o :: os, c :: cs => (s, o, some c) :: zipEntries ss os cs
  | _, _, _ => []

/-- Load the v2 (or v3, after its extra header fields) tables that
follow the version field:  fanout, shas, crc32s, offsets, large
offsets. -/
def loadV2entries (bs : List Nat) : Option (List (List Nat × Nat × Option Nat)) :=
  match parseU32s 256 bs with
  | none => none
  | some (fan, r1) =>
    match parseShas (fan.getLastD 0) r1 with
    | none => none
    | some (shas, r2) =>
      match parseU32s (fan.getLastD 0) r2 with
      | none => none
      | some (crcs, r3) =>
        match parseU32s (fan.getLastD 0) r3 with
        | none => none
        | some (words, r4) =>
          match parseU64s (words.countP (fun w => decide (2147483648 ≤ w))) r4 with
          | none => none
          | some (larges, _) =>
            some (zipEntries shas (decodeOffsets words larges) crcs)

/-- Load a v1 index: fanout then records. -/
def loadV1entries (bs : List Nat) : Option (List (List Nat × Nat × Option Nat)) :=
  match parseU32s 256 bs with
  | none => none
  | some (fan, r1) =>
    match parseV1Records (fan.getLastD 0) r1 with
    | none => none
    | some (es, _) => some es

/-- `load_pack_index`: detect the version from the `\xfftOc` magic
(absent ⇒ v1) and the following version field; v3 additionally carries
the hash-algorithm and shortened-oid-length fields, and only SHA-1
(algorithm 1) can be read. -/
def load_pack_index (bs : List Nat) : Option (List (List Nat × Nat × Option Nat)) :=
  if bs.take 4 = [255, 116, 79, 99] then
    match parseU32s 1 (bs.drop 4) with
    | some ([v], r) =>
      if v = 2 then loadV2entries r
      else if v = 3 then
        match parseU32s 2 r with
        | some ([algo, _], r2) => if algo = 1 then loadV2entries r2 else none
        | _ => none
      else none
    | _ => none
  else loadV1entries bs

/-- `object_offset` over a loaded index: the offset recorded for an id
(spec §4.4; the fanout binary search is an access-path optimization
with this observable behaviour). -/
def object_offset (es : List (List Nat × Nat × Option Nat)) (sha : List Nat) :
    Option Nat :=
  (es.find? (fun x => x.1 = sha)).map (fun x => x.2.1)

/-! ### Pack index lemmas (C5, C6) -/

/-- C6: requesting a version-3 index with hash algorithm SHA-256
(value 2) fails with `unsupportedHash` rather than producing index
bytes, for every entry list. -/
theorem write_pack_index_v3_sha256 (h : List Nat → List Nat)
    (entries : List IdxEntry) (packChecksum : List Nat) :
    write_pack_index_v3 h 2 entries packChecksum = .error .unsupportedHash := by
  rw [write_pack_index_v3]
  simp

theorem parseU32s_flatMap (vs : List Nat) (rest : List Nat)
    (h : ∀ v ∈ vs, v < 4294967296) :
    parseU32s vs.length (vs.flatMap u32BE ++ rest) = some (vs, rest) := by
  induction vs with
  | nil => simp [parseU32s]
  | cons v vs ih =>
    have hv := h v (List.mem_cons_self _ _)
    rw [List.flatMap_cons, List.append_assoc, List.length_cons]
    show parseU32s (vs.length + 1)
      (v / 16777216 % 256 :: v / 65536 % 256 :: v / 256 % 256 :: v % 256 ::
        (vs.flatMap u32BE ++ rest)) = _
    rw [parseU32s, ih (fun x hx => h x (List.mem_cons_of_mem _ hx))]
    have hval : 16777216 * (v / 16777216 % 256) + 65536 * (v / 65536 % 256) +
        256 * (v / 256 % 256) + v % 256 = v := by omega
    simp [hval]

theorem parseU64s_flatMap (vs : List Nat) (rest : List Nat)
    (h : ∀ v ∈ vs, v < 18446744073709551616) :
    parseU64s vs.length (vs.flatMap u64BE ++ rest) = some (vs, rest) := by
  induction vs with
  | nil => simp [parseU64s]
  | cons v vs ih =>
    have hv := h v (List.mem_cons_self _ _)
    rw [List.flatMap_cons, List.append_assoc, List.length_cons]
    show parseU64s (vs.length + 1)
      (v / 72057594037927936 % 256 :: v / 281474976710656 % 256 ::
        v / 1099511627776 % 256 :: v / 4294967296 % 256 ::
        v / 16777216 % 256 :: v / 65536 % 256 :: v / 256 % 256 :: v % 256 ::
        (vs.flatMap u64BE ++ rest)) = _
    rw [parseU64s, ih (fun x hx => h x (List.mem_cons_of_mem _ hx))]
    have hval : 72057594037927936 * (v / 72057594037927936 % 256) +
        281474976710656 * (v / 281474976710656 % 256) +
        1099511627776 * (v / 1099511627776 % 256) +
        4294967296 * (v / 4294967296 % 256) +
        16777216 * (v / 16777216 % 256) + 65536 * (v / 65536 % 256) +
        256 * (v / 256 % 256) + v % 256 = v := by omega
    simp [hval]

theorem parseShas_flatMap (ss : List (List Nat)) (rest : List Nat)
    (h : ∀ s ∈ ss, s.length = 20) :
    parseShas ss.length (ss.flatMap (fun s => s) ++ rest) = some (ss, rest) := by
  induction ss with
  | nil => simp [parseShas]
  | cons s ss ih =>
    have hs := h s (List.mem_cons_self _ _)
    rw [List.flatMap_cons, List.append_assoc, List.length_cons, parseShas]
    have hlen : (s ++ (ss.flatMap (fun s => s) ++ rest)).length =
        20 + (ss.flatMap (fun s => s) ++ rest).length := by
      rw [List.length_append, hs]
    rw [if_neg (by omega)]
    have htake : (s ++ (ss.flatMap (fun s => s) ++ rest)).take 20 = s := by
      rw [← hs, List.take_left]
    have hdrop : (s ++ (ss.flatMap (fun s => s) ++ rest)).drop 20 =
        ss.flatMap (fun s => s) ++ rest := by
      rw [← hs, List.drop_left]
    rw [htake, hdrop, ih (fun x hx => h x (List.mem_cons_of_mem _ hx))]
    rfl

theorem parseV1Records_flatMap (entries : List IdxEntry) (rest : List Nat)
    (h : ∀ e ∈ entries, e.sha.length = 20 ∧ e.offset < 4294967296) :
    parseV1Records entries.length
      (entries.flatMap (fun e => u32BE e.offset ++ e.sha) ++ rest) =
      some (entries.map (fun e => (e.sha, e.offset, Option.none)), rest) := by
  induction entries with
  | nil => simp [parseV1Records]
  | cons e es ih =>
    obtain ⟨hs, ho⟩ := h e (List.mem_cons_self _ _)
    rw [List.flatMap_cons, List.append_assoc, List.length_cons, List.append_assoc]
    show parseV1Records (es.length + 1)
      (e.offset / 16777216 % 256 :: e.offset / 65536 % 256 ::
        e.offset / 256 % 256 :: e.offset % 256 ::
        (e.sha ++ (es.flatMap (fun x => u32BE x.offset ++ x.sha) ++ rest))) = _
    rw [parseV1Records]
    have hlen : (e.sha ++ (es.flatMap (fun x => u32BE x.offset ++ x.sha) ++ rest)).length =
        20 + (es.flatMap (fun x => u32BE x.offset ++ x.sha) ++ rest).length := by
      rw [List.length_append, hs]
    rw [if_neg (by omega)]
    have htake : (e.sha ++ (es.flatMap (fun x => u32BE x.offset ++ x.sha) ++ rest)).take 20 =
        e.sha := by
      rw [← hs, List.take_left]
    have hdrop : (e.sha ++ (es.flatMap (fun x => u32BE x.offset ++ x.sha) ++ rest)).drop 20 =
        es.flatMap (fun x => u32BE x.offset ++ x.sha) ++ rest := by
      rw [← hs, List.drop_left]
    rw [htake, hdrop, ih (fun x hx => h x (List.mem_cons_of_mem _ hx))]
    have hval : 16777216 * (e.offset / 16777216 % 256) + 65536 * (e.offset / 65536 % 256) +
        256 * (e.offset / 256 % 256) + e.offset % 256 = e.offset := by omega
    simp [hval]

theorem fanoutValues_length (entries : List IdxEntry) :
    (fanoutValues entries).length = 256 := by
  simp [fanoutValues]

theorem fanoutValues_lt (entries : List IdxEntry) (v : Nat)
    (hv : v ∈ fanoutValues entries) : v ≤ entries.length := by
  rw [fanoutValues] at hv
  obtain ⟨b, _, rfl⟩ := List.mem_map.mp hv
  exact List.countP_le_length _

theorem fanoutValues_getLastD (entries : List IdxEntry)
    (h : ∀ e ∈ entries, e.sha.length = 20 ∧ ∀ b ∈ e.sha, b < 256) :
    (fanoutValues entries).getLastD 0 = entries.length := by
  rw [fanoutValues]
  rw [show (256 : Nat) = 255 + 1 from rfl, List.range_succ, List.map_append]
  rw [List.map_singleton, List.getLastD_concat]
  rw [List.countP_eq_length]
  intro e he
  obtain ⟨hlen, hbytes⟩ := h e he
  simp only [decide_eq_true_eq]
  cases hsha : e.sha with
  | nil => rw [hsha] at hlen; simp at hlen
  | cons b bs =>
    have := hbytes b (by rw [hsha]; exact List.mem_cons_self _ _)
    simp only [hsha, List.headD_cons]
    omega

theorem offsetWords_length (offs : List Nat) :
    ∀ k, (offsetWords offs k).length = offs.length := by
  induction offs with
  | nil => intro k; rfl
  | cons off rest ih =>
    intro k
    rw [offsetWords]
    by_cases hoff : off < 2147483648
    · rw [if_pos hoff]
      simp [ih]
    · rw [if_neg hoff]
      simp [ih]

theorem countP_offsetWords (offs : List Nat) :
    ∀ k, (offsetWords offs k).countP (fun w => decide (2147483648 ≤ w)) =
      (largeOffsets offs).length := by
  induction offs with
  | nil => intro k; rfl
  | cons off rest ih =>
    intro k
    rw [offsetWords, largeOffsets]
    by_cases hoff : off < 2147483648
    · rw [if_pos hoff, if_pos hoff, List.countP_cons]
      rw [ih k]
      simp only [decide_eq_true_eq]
      rw [if_neg (by omega)]
      simp
    · rw [if_neg hoff, if_neg hoff, List.countP_cons]
      rw [ih (k + 1)]
      simp only [decide_eq_true_eq]
      rw [if_pos (by omega)]
      simp

theorem offsetWords_lt (offs : List Nat) :
    ∀ k, k + (largeOffsets offs).length ≤ 2147483648 →
      ∀ w ∈ offsetWords offs k, w < 4294967296 := by
  induction offs with
  | nil => intro k _ w hw; simp [offsetWords] at hw
  | cons off rest ih =>
    intro k hk w hw
    rw [offsetWords] at hw
    by_cases hoff : off < 2147483648
    · rw [if_pos hoff] at hw
      rw [largeOffsets, if_pos hoff] at hk
      rcases List.mem_cons.mp hw with rfl | hmem
      · omega
      · exact ih k hk w hmem
    · rw [if_neg hoff] at hw
      rw [largeOffsets, if_neg hoff] at hk
      simp only [List.length_cons] at hk
      rcases List.mem_cons.mp hw with rfl | hmem
      · omega
      · exact ih (k + 1) (by omega) w hmem

theorem largeOffsets_sub (offs : List Nat) (o : Nat) (h : o ∈ largeOffsets offs) :
    o ∈ offs := by
  induction offs with
  | nil => simp [largeOffsets] at h
  | cons off rest ih =>
    rw [largeOffsets] at h
    by_cases hoff : off < 2147483648
    · rw [if_pos hoff] at h
      exact List.mem_cons_of_mem _ (ih h)
    · rw [if_neg hoff] at h
      rcases List.mem_cons.mp h with rfl | hmem
      · exact List.mem_cons_self _ _
      · exact List.mem_cons_of_mem _ (ih hmem)

theorem decodeOffsets_offsetWords (offs : List Nat) :
    ∀ pre : List Nat,
      decodeOffsets (offsetWords offs pre.length) (pre ++ largeOffsets offs) =
        offs := by
  induction offs with
  | nil => intro pre; rfl
  | cons off rest ih =>
    intro pre
    rw [offsetWords, largeOffsets]
    by_cases hoff : off < 2147483648
    · rw [if_pos hoff, if_pos hoff, decodeOffsets, List.map_cons]
      rw [if_pos hoff]
      have := ih pre
      rw [decodeOffsets] at this
      rw [this]
    · rw [if_neg hoff, if_neg hoff, decodeOffsets, List.map_cons]
      rw [if_neg (by omega)]
      have hget : (pre ++ off :: largeOffsets rest).getD
          (2147483648 + pre.length - 2147483648) 0 = off := by
        have h1 : 2147483648 + pre.length - 2147483648 = pre.length := by omega
        rw [h1, List.getD_eq_getElem?_getD, List.getElem?_append_right (le_refl _)]
        simp
      rw [hget]
      have hthis := ih (pre ++ [off])
      rw [decodeOffsets, List.append_assoc] at hthis
      simp only [List.singleton_append] at hthis
      have hpre : (pre ++ [off]).length = pre.length + 1 := by simp
      rw [hpre] at hthis
      rw [hthis]

theorem zipEntries_map (entries : List IdxEntry) :
    zipEntries (entries.map (fun e => e.sha)) (entries.map (fun e => e.offset))
      (entries.map (fun e => e.crc)) =
      entries.map (fun e => (e.sha, e.offset, some e.crc)) := by
  induction entries with
  | nil => rfl
  | cons e es ih =>
    simp only [List.map_cons, zipEntries]
    rw [ih]

theorem largeOffsets_length_le (offs : List Nat) :
    (largeOffsets offs).length ≤ offs.length := by
  induction offs with
  | nil => simp [largeOffsets]
  | cons off rest ih =>
    rw [largeOffsets]
    by_cases hoff : off < 2147483648
    · rw [if_pos hoff]
      simp only [List.length_cons]
      omega
    · rw [if_neg hoff]
      simp only [List.length_cons]
      omega

theorem loadV2entries_write (entries : List IdxEntry) (tail : List Nat)
    (h20 : ∀ e ∈ entries, e.sha.length = 20 ∧ ∀ b ∈ e.sha, b < 256)
    (hoff : ∀ e ∈ entries, e.offset < 18446744073709551616)
    (hcrc : ∀ e ∈ entries, e.crc < 4294967296)
    (hcount : entries.length < 2147483648) :
    loadV2entries (fanoutBytes entries ++
      (entries.flatMap (fun e => e.sha) ++
      (entries.flatMap (fun e => u32BE e.crc) ++
      ((offsetWords (entries.map (fun e => e.offset)) 0).flatMap u32BE ++
      ((largeOffsets (entries.map (fun e => e.offset))).flatMap u64BE ++ tail))))) =
      some (entries.map (fun e => (e.sha, e.offset, some e.crc))) := by
  have hfan : parseU32s 256 (fanoutBytes entries ++
      (entries.flatMap (fun e => e.sha) ++
      (entries.flatMap (fun e => u32BE e.crc) ++
      ((offsetWords (entries.map (fun e => e.offset)) 0).flatMap u32BE ++
      ((largeOffsets (entries.map (fun e => e.offset))).flatMap u64BE ++ tail))))) =
      some (fanoutValues entries,
        entries.flatMap (fun e => e.sha) ++
        (entries.flatMap (fun e => u32BE e.crc) ++
        ((offsetWords (entries.map (fun e => e.offset)) 0).flatMap u32BE ++
        ((largeOffsets (entries.map (fun e => e.offset))).flatMap u64BE ++ tail)))) := by
    rw [fanoutBytes, show (256 : Nat) = (fanoutValues entries).length from
      (fanoutValues_length entries).symm]
    exact parseU32s_flatMap _ _
      (fun v hv => by have := fanoutValues_lt entries v hv; omega)
  have hshaeq : entries.flatMap (fun e => e.sha) =
      (entries.map (fun e => e.sha)).flatMap (fun s => s) := by
    rw [List.flatMap_map]
  have hshas : parseShas entries.length
      (entries.flatMap (fun e => e.sha) ++
      (entries.flatMap (fun e => u32BE e.crc) ++
      ((offsetWords (entries.map (fun e => e.offset)) 0).flatMap u32BE ++
      ((largeOffsets (entries.map (fun e => e.offset))).flatMap u64BE ++ tail)))) =
      some (entries.map (fun e => e.sha),
        entries.flatMap (fun e => u32BE e.crc) ++
        ((offsetWords (entries.map (fun e => e.offset)) 0).flatMap u32BE ++
        ((largeOffsets (entries.map (fun e => e.offset))).flatMap u64BE ++ tail))) := by
    rw [hshaeq, show entries.length = (entries.map (fun e => e.sha)).length by simp]
    exact parseShas_flatMap _ _
      (fun s hs => by
        obtain ⟨e, he, rfl⟩ := List.mem_map.mp hs
        exact (h20 e he).1)
  have hcrceq : entries.flatMap (fun e => u32BE e.crc) =
      (entries.map (fun e => e.crc)).flatMap u32BE := by
    rw [List.flatMap_map]
  have hcrcs : parseU32s entries.length
      (entries.flatMap (fun e => u32BE e.crc) ++
      ((offsetWords (entries.map (fun e => e.offset)) 0).flatMap u32BE ++
      ((largeOffsets (entries.map (fun e => e.offset))).flatMap u64BE ++ tail))) =
      some (entries.map (fun e => e.crc),
        (offsetWords (entries.map (fun e => e.offset)) 0).flatMap u32BE ++
        ((largeOffsets (entries.map (fun e => e.offset))).flatMap u64BE ++ tail)) := by
    rw [hcrceq, show entries.length = (entries.map (fun e => e.crc)).length by simp]
    exact parseU32s_flatMap _ _
      (fun v hv => by
        obtain ⟨e, he, rfl⟩ := List.mem_map.mp hv
        exact hcrc e he)
  have hlarglen : (largeOffsets (entries.map (fun e => e.offset))).length ≤
      entries.length := by
    have := largeOffsets_length_le (entries.map (fun e => e.offset))
    simpa using this
  have hwords : parseU32s entries.length
      ((offsetWords (entries.map (fun e => e.offset)) 0).flatMap u32BE ++
      ((largeOffsets (entries.map (fun e => e.offset))).flatMap u64BE ++ tail)) =
      some (offsetWords (entries.map (fun e => e.offset)) 0,
        (largeOffsets (entries.map (fun e => e.offset))).flatMap u64BE ++ tail) := by
    rw [show entries.length = (offsetWords (entries.map (fun e => e.offset)) 0).length by
      rw [offsetWords_length]; simp]
    exact parseU32s_flatMap _ _
      (offsetWords_lt (entries.map (fun e => e.offset)) 0 (by omega))
  have hlarges : parseU64s
      ((offsetWords (entries.map (fun e => e.offset)) 0).countP
        (fun w => decide (2147483648 ≤ w)))
      ((largeOffsets (entries.map (fun e => e.offset))).flatMap u64BE ++ tail) =
      some (largeOffsets (entries.map (fun e => e.offset)), tail) := by
    rw [countP_offsetWords]
    rw [show (largeOffsets (entries.map (fun e => e.offset))).length =
      (largeOffsets (entries.map (fun e => e.offset))).length from rfl]
    exact parseU64s_flatMap _ _
      (fun v hv => by
        have hmem := largeOffsets_sub _ v hv
        obtain ⟨e, he, rfl⟩ := List.mem_map.mp hmem
        exact hoff e he)
  have hdec : decodeOffsets (offsetWords (entries.map (fun e => e.offset)) 0)
      (largeOffsets (entries.map (fun e => e.offset))) =
      entries.map (fun e => e.offset) := by
    have := decodeOffsets_offsetWords (entries.map (fun e => e.offset)) []
    simpa using this
  have hlast : (fanoutValues entries).getLastD 0 = entries.length :=
    fanoutValues_getLastD entries h20
  rw [loadV2entries, hfan]
  simp only [hlast, hshas, hcrcs, hwords, hlarges, hdec, zipEntries_map]

theorem loadV1entries_write (entries : List IdxEntry) (tail : List Nat)
    (h20 : ∀ e ∈ entries, e.sha.length = 20 ∧ ∀ b ∈ e.sha, b < 256)
    (hoff : ∀ e ∈ entries, e.offset < 4294967296)
    (hcount : entries.length < 2147483648) :
    loadV1entries (fanoutBytes entries ++
      (entries.flatMap (fun e => u32BE e.offset ++ e.sha) ++ tail)) =
      some (entries.map (fun e => (e.sha, e.offset, Option.none))) := by
  have hfan : parseU32s 256 (fanoutBytes entries ++
      (entries.flatMap (fun e => u32BE e.offset ++ e.sha) ++ tail)) =
      some (fanoutValues entries,
        entries.flatMap (fun e => u32BE e.offset ++ e.sha) ++ tail) := by
    rw [fanoutBytes, show (256 : Nat) = (fanoutValues entries).length from
      (fanoutValues_length entries).symm]
    exact parseU32s_flatMap _ _
      (fun v hv => by have := fanoutValues_lt entries v hv; omega)
  have hlast : (fanoutValues entries).getLastD 0 = entries.length :=
    fanoutValues_getLastD entries h20
  have hrec := parseV1Records_flatMap entries tail
    (fun e he => ⟨(h20 e he).1, hoff e he⟩)
  rw [loadV1entries, hfan]
  simp only [hlast, hrec]


theorem take4_u32BE_append (n : Nat) (R : List Nat) :
    (u32BE n ++ R).take 4 = u32BE n := rfl

theorem fanoutBytes_eq_head (entries : List IdxEntry) :
    fanoutBytes entries =
      u32BE (entries.countP (fun e => decide (e.sha.headD 0 ≤ 0))) ++
      ((List.map Nat.succ (List.range 255)).map
        (fun b => entries.countP (fun e => decide (e.sha.headD 0 ≤ b)))).flatMap
        u32BE := by
  rw [fanoutBytes, fanoutValues, show (256 : Nat) = 255 + 1 from rfl,
    List.range_succ_eq_map, List.map_cons, List.flatMap_cons]

theorem take4_fanout_append (entries : List IdxEntry) (X : List Nat) :
    (fanoutBytes entries ++ X).take 4 =
      u32BE (entries.countP (fun e => decide (e.sha.headD 0 ≤ 0))) := by
  rw [fanoutBytes_eq_head, List.append_assoc, take4_u32BE_append]

theorem fanout_not_magic (entries : List IdxEntry) (X : List Nat)
    (hcount : entries.length < 2147483648) :
    ¬ ((fanoutBytes entries ++ X).take 4 = [255, 116, 79, 99]) := by
  rw [take4_fanout_append]
  intro heq
  have hle : entries.countP (fun e => decide (e.sha.headD 0 ≤ 0)) ≤ entries.length :=
    List.countP_le_length _
  simp only [u32BE, List.cons.injEq, and_true] at heq
  omega

theorem load_pack_index_magic2 (R : List Nat) :
    load_pack_index ([255, 116, 79, 99] ++ (u32BE 2 ++ R)) = loadV2entries R := by
  rw [load_pack_index]
  rw [if_pos (by
    rw [show (4 : Nat) = ([255, 116, 79, 99] : List Nat).length from rfl,
      List.take_left])]
  rw [show (([255, 116, 79, 99] : List Nat) ++ (u32BE 2 ++ R)).drop 4 =
      u32BE 2 ++ R from by
    rw [show (4 : Nat) = ([255, 116, 79, 99] : List Nat).length from rfl,
      List.drop_left]]
  have hp := parseU32s_flatMap [2] R (by intro v hv; simp at hv; omega)
  simp only [List.flatMap_cons, List.flatMap_nil, List.append_nil,
    List.length_cons, List.length_nil] at hp
  rw [hp]
  simp

theorem load_pack_index_magic3 (R : List Nat) :
    load_pack_index ([255, 116, 79, 99] ++ (u32BE 3 ++ (u32BE 1 ++ (u32BE 20 ++ R)))) =
      loadV2entries R := by
  rw [load_pack_index]
  rw [if_pos (by
    rw [show (4 : Nat) = ([255, 116, 79, 99] : List Nat).length from rfl,
      List.take_left])]
  rw [show (([255, 116, 79, 99] : List Nat) ++
      (u32BE 3 ++ (u32BE 1 ++ (u32BE 20 ++ R)))).drop 4 =
      u32BE 3 ++ (u32BE 1 ++ (u32BE 20 ++ R)) from by
    rw [show (4 : Nat) = ([255, 116, 79, 99] : List Nat).length from rfl,
      List.drop_left]]
  have hp3 := parseU32s_flatMap [3] (u32BE 1 ++ (u32BE 20 ++ R))
    (by intro v hv; simp at hv; omega)
  simp only [List.flatMap_cons, List.flatMap_nil, List.append_nil,
    List.length_cons, List.length_nil] at hp3
  rw [hp3]
  have hp12 := parseU32s_flatMap [1, 20] R (by intro v hv; simp at hv; omega)
  simp only [List.flatMap_cons, List.flatMap_nil, List.append_nil,
    List.length_cons, List.length_nil, List.append_assoc] at hp12
  simp only [List.append_assoc]
  rw [hp12]
  simp

theorem load_writeIndexV1 (h : List Nat → List Nat) (entries : List IdxEntry)
    (ps : List Nat)
    (h20 : ∀ e ∈ entries, e.sha.length = 20 ∧ ∀ b ∈ e.sha, b < 256)
    (hoff : ∀ e ∈ entries, e.offset < 4294967296)
    (hcount : entries.length < 2147483648) :
    load_pack_index (writeIndexV1 h entries ps) =
      some (entries.map (fun e => (e.sha, e.offset, Option.none))) := by
  simp only [writeIndexV1, List.append_assoc]
  rw [load_pack_index, if_neg (fanout_not_magic entries _ hcount)]
  exact loadV1entries_write entries _ h20 hoff hcount

theorem load_writeIndexV2 (h : List Nat → List Nat) (entries : List IdxEntry)
    (ps : List Nat)
    (h20 : ∀ e ∈ entries, e.sha.length = 20 ∧ ∀ b ∈ e.sha, b < 256)
    (hoff : ∀ e ∈ entries, e.offset < 18446744073709551616)
    (hcrc : ∀ e ∈ entries, e.crc < 4294967296)
    (hcount : entries.length < 2147483648) :
    load_pack_index (writeIndexV2 h entries ps) =
      some (entries.map (fun e => (e.sha, e.offset, some e.crc))) := by
  simp only [writeIndexV2, List.append_assoc]
  rw [load_pack_index_magic2]
  exact loadV2entries_write entries _ h20 hoff hcrc hcount

theorem load_writeIndexV3 (h : List Nat → List Nat) (entries : List IdxEntry)
    (ps : List Nat)
    (h20 : ∀ e ∈ entries, e.sha.length = 20 ∧ ∀ b ∈ e.sha, b < 256)
    (hoff : ∀ e ∈ entries, e.offset < 18446744073709551616)
    (hcrc : ∀ e ∈ entries, e.crc < 4294967296)
    (hcount : entries.length < 2147483648) :
    load_pack_index (writeIndexV3Bytes h entries ps) =
      some (entries.map (fun e => (e.sha, e.offset, some e.crc))) := by
  simp only [writeIndexV3Bytes, List.append_assoc]
  rw [load_pack_index_magic3]
  exact loadV2entries_write entries _ h20 hoff hcrc hcount

theorem object_offset_map_agree (entries : List IdxEntry) (sha : List Nat) :
    object_offset (entries.map (fun e => (e.sha, e.offset, Option.none))) sha =
      object_offset (entries.map (fun e => (e.sha, e.offset, some e.crc))) sha := by
  induction entries with
  | nil => rfl
  | cons e es ih =>
    by_cases he : e.sha = sha
    · simp [object_offset, List.find?_cons, he]
    · simpa [object_offset, List.find?_cons, he] using ih

/-- C5: writing the same `(id, offset, crc32)` entries at index
versions 1, 2 and 3 yields loaded indexes that agree on `iterentries`
(the v1 loader reporting `crc32 = none`) and on `object_offset` for
every id; each version round-trips through its loader. -/
theorem index_version_independence (h : List Nat → List Nat)
    (entries : List IdxEntry) (ps : List Nat)
    (h20 : ∀ e ∈ entries, e.sha.length = 20 ∧ ∀ b ∈ e.sha, b < 256)
    (hoff : ∀ e ∈ entries, e.offset < 4294967296)
    (hcrc : ∀ e ∈ entries, e.crc < 4294967296)
    (hcount : entries.length < 2147483648) :
    load_pack_index (writeIndexV1 h entries ps) =
      some (entries.map (fun e => (e.sha, e.offset, Option.none))) ∧
    load_pack_index (writeIndexV2 h entries ps) =
      some (entries.map (fun e => (e.sha, e.offset, some e.crc))) ∧
    write_pack_index_v3 h 1 entries ps = .ok (writeIndexV3Bytes h entries ps) ∧
    load_pack_index (writeIndexV3Bytes h entries ps) =
      some (entries.map (fun e => (e.sha, e.offset, some e.crc))) ∧
    (∀ sha,
      object_offset (entries.map (fun e => (e.sha, e.offset, Option.none))) sha =
        object_offset (entries.map (fun e => (e.sha, e.offset, some e.crc))) sha) :=
  ⟨load_writeIndexV1 h entries ps h20 hoff hcount,
   load_writeIndexV2 h entries ps h20 (fun e he => by have := hoff e he; omega)
     hcrc hcount,
   by rw [write_pack_index_v3]; simp,
   load_writeIndexV3 h entries ps h20 (fun e he => by have := hoff e he; omega)
     hcrc hcount,
   fun sha => object_offset_map_agree entries sha⟩

/-- Two concrete index entries, one with an offset above `2^31` so the
v2/v3 large-offset table is exercised. -/
def sampleIdxEntries : List IdxEntry :=
  [IdxEntry.mk (List.replicate 20 1) 12 42,
   IdxEntry.mk (List.replicate 20 2) 3000000000 7]

/-- C5 witness: the three index versions agree at a concrete entry
list. -/
theorem index_version_independence_witness :
    (∀ e ∈ sampleIdxEntries, e.sha.length = 20 ∧ ∀ b ∈ e.sha, b < 256) ∧
    (∀ e ∈ sampleIdxEntries, e.offset < 4294967296) ∧
    (∀ e ∈ sampleIdxEntries, e.crc < 4294967296) ∧
    sampleIdxEntries.length < 2147483648 ∧
    (load_pack_index (writeIndexV1 (fun _ => []) sampleIdxEntries []) =
      some (sampleIdxEntries.map (fun e => (e.sha, e.offset, Option.none))) ∧
    load_pack_index (writeIndexV2 (fun _ => []) sampleIdxEntries []) =
      some (sampleIdxEntries.map (fun e => (e.sha, e.offset, some e.crc))) ∧
    write_pack_index_v3 (fun _ => []) 1 sampleIdxEntries [] =
      .ok (writeIndexV3Bytes (fun _ => []) sampleIdxEntries []) ∧
    load_pack_index (writeIndexV3Bytes (fun _ => []) sampleIdxEntries []) =
      some (sampleIdxEntries.map (fun e => (e.sha, e.offset, some e.crc))) ∧
    (∀ sha,
      object_offset (sampleIdxEntries.map (fun e => (e.sha, e.offset, Option.none)))
          sha =
        object_offset (sampleIdxEntries.map (fun e => (e.sha, e.offset, some e.crc)))
          sha)) :=
  ⟨by decide, by decide, by decide, by decide,
    index_version_independence (fun _ => []) sampleIdxEntries []
      (by decide) (by decide) (by decide) (by decide)⟩

/-! ## Delta chain iterator (spec §4.5)

Modelled from the spec: `DeltaChainIterator` is in `dulwich/pack.py`,
not among the available sources.  A pack entry names its base either by
in-pack offset (ofs-delta) or by object id (ref-delta); the iterator
partitions entries into roots (non-delta, walked in offset order) and
pending deltas, then DFS-walks each root emitting children after their
base; ref-deltas whose base id is not in the pack are grouped under
their external base and walked once the resolver supplies it; unresolved
bases raise `UnresolvedDeltas` with their ids. -/

inductive BaseRef where
  | ofs (o : Nat)
  | ref (id : List Nat)
  deriving DecidableEq, Repr

structure PEntry where
  offset : Nat
  oid : List Nat
  base : Option BaseRef
  deriving DecidableEq, Repr

/-- The in-pack base entry of `c`, if any: ofs-deltas are resolved by
offset, ref-deltas by id (a ref-delta whose id is not in the pack has no
in-pack parent — thin-pack case). -/
def parentOf (es : List PEntry) (c : PEntry) : Option PEntry :=
  match c.base with
  | none => none
  | some (.ofs o) => es.find? (fun p => p.offset = o)
  | some (.ref i) => es.find? (fun p => p.oid = i)

/-- The in-pack entries whose base is `p` (both delta kinds). -/
def childrenOf (es : List PEntry) (p : PEntry) : List PEntry :=
  es.filter (fun c => decide (parentOf es c = some p))

/-- Depth-first emission of `e`'s delta subtree: the entry itself, then
every dependent chain (spec §4.5 step 2). -/
def dfs (es : List PEntry) : Nat → PEntry → List PEntry
  | 0, _ => []
  | fuel + 1, e => e :: (childrenOf es e).flatMap (dfs es fuel)

/-- Phase-1 roots (non-delta entries, sorted by offset) followed by the
thin-pack seeds (ref-deltas whose base id is outside the pack), i.e.
exactly the entries with no in-pack parent. -/
def walkSeeds (es : List PEntry) : List PEntry :=
  (es.filter (fun e => decide (e.base = none))).mergeSort
      (fun a b => a.offset ≤ b.offset) ++
    es.filter (fun e =>
      match e.base with
      | some (.ref i) => (es.find? (fun p => p.oid = i)).isNone
      | _ => false)

/-- The full emission order of the delta chain iterator. -/
def walkAll (es : List PEntry) : List PEntry :=
  (walkSeeds es).flatMap (dfs es (es.length + 1))

/-- The external (thin-pack) base ids: referenced by a ref-delta but
absent from the pack, deduplicated. -/
def extRefIds (es : List PEntry) : List (List Nat) :=
  (es.filterMap (fun e =>
    match e.base with
    | some (.ref i) =>
      if (es.find? (fun p => p.oid = i)).isSome then none else some i
    | _ => none)).dedup

inductive PackIterError where
  | unresolvedDeltas (shas : List (List Nat))
  deriving DecidableEq, Repr

/-- The iterator run: external bases are fetched through `resolve`; if
any are unresolvable the run fails with `unresolvedDeltas` carrying
exactly their ids (spec §4.5 step 3), otherwise every chain is walked. -/
def iter_entries (resolve : List Nat → Option Unit) (es : List PEntry) :
    Except PackIterError (List PEntry) :=
  let missing := (extRefIds es).filter (fun i => (resolve i).isNone)
  if missing = [] then .ok (walkAll es) else .error (.unresolvedDeltas missing)

/-- Ancestor chains: `ReachN es n s c` means `s` is reached from `c` by
`n` upward parent steps. -/
inductive ReachN (es : List PEntry) : Nat → PEntry → PEntry → Prop where
  | refl (e : PEntry) : ReachN es 0 e e
  | step {n : Nat} {s p c : PEntry} :
      ReachN es n s p → parentOf es c = some p → ReachN es (n + 1) s c

/-- `n`-fold parent iteration from `c` upward. -/
def iterParent (es : List PEntry) : Nat → PEntry → Option PEntry
  | 0, c => some c
  | n + 1, c => (parentOf es c).bind (iterParent es n)

/-! ### Delta chain iterator lemmas (C2, C3) -/

theorem parentOf_mem (es : List PEntry) (c p : PEntry)
    (h : parentOf es c = some p) : p ∈ es := by
  rw [parentOf] at h
  cases hb : c.base with
  | none => rw [hb] at h; exact absurd h (by simp)
  | some br =>
    rw [hb] at h
    cases br with
    | ofs o => exact List.mem_of_find?_eq_some h
    | ref i => exact List.mem_of_find?_eq_some h

theorem mem_childrenOf (es : List PEntry) (p c : PEntry) :
    c ∈ childrenOf es p ↔ c ∈ es ∧ parentOf es c = some p := by
  rw [childrenOf, List.mem_filter]
  simp

theorem dfs_mem_entries (es : List PEntry) :
    ∀ fuel s x, s ∈ es → x ∈ dfs es fuel s → x ∈ es := by
  intro fuel
  induction fuel with
  | zero => intro s x _ hx; simp [dfs] at hx
  | succ f ih =>
    intro s x hs hx
    rw [dfs] at hx
    rcases List.mem_cons.mp hx with rfl | hmem
    · exact hs
    · obtain ⟨ch, hch, hxch⟩ := List.mem_flatMap.mp hmem
      exact ih ch x ((mem_childrenOf es s ch).mp hch).1 hxch

theorem ReachN_iterParent (es : List PEntry) {n : Nat} {s c : PEntry}
    (h : ReachN es n s c) : iterParent es n c = some s := by
  induction h with
  | refl e => rfl
  | step hr hp ih =>
    rw [iterParent, hp]
    exact ih

theorem iterParent_ReachN (es : List PEntry) :
    ∀ n c s, iterParent es n c = some s → ReachN es n s c := by
  intro n
  induction n with
  | zero =>
    intro c s h
    rw [iterParent] at h
    cases h
    exact ReachN.refl c
  | succ m ih =>
    intro c s h
    rw [iterParent] at h
    cases hp : parentOf es c with
    | none =>
      rw [hp, Option.none_bind] at h
      exact absurd h (by simp)
    | some p =>
      rw [hp, Option.some_bind] at h
      exact ReachN.step (ih p s h) hp

theorem iterParent_add (es : List PEntry) (m : Nat) :
    ∀ n c, iterParent es (m + n) c = (iterParent es n c).bind (iterParent es m) := by
  intro n
  induction n with
  | zero => intro c; simp [iterParent]
  | succ k ih =>
    intro c
    rw [show m + (k + 1) = (m + k) + 1 by omega, iterParent, iterParent]
    cases hp : parentOf es c with
    | none => rw [Option.none_bind, Option.none_bind, Option.none_bind]
    | some p =>
      rw [Option.some_bind, Option.some_bind]
      exact ih p

theorem ReachN_mem (es : List PEntry) {n : Nat} {s c : PEntry}
    (h : ReachN es n s c) (hc : c ∈ es) : s ∈ es := by
  induction h with
  | refl e => exact hc
  | step hr hp ih => exact ih (parentOf_mem es _ _ hp)

theorem ReachN_trans_aux (es : List PEntry) {n : Nat} {t c : PEntry}
    (h2 : ReachN es n t c) :
    ∀ m s, ReachN es m s t → ReachN es (m + n) s c := by
  induction h2 with
  | refl e => exact fun m s h1 => h1
  | step hr hp ih => exact fun m s h1 => ReachN.step (ih m s h1) hp

theorem ReachN_trans (es : List PEntry) {m n : Nat} {s t c : PEntry}
    (h1 : ReachN es m s t) (h2 : ReachN es n t c) : ReachN es (m + n) s c :=
  ReachN_trans_aux es h2 m s h1

theorem dfs_mem_reach (es : List PEntry) :
    ∀ fuel s x, x ∈ dfs es fuel s → ∃ n, ReachN es n s x := by
  intro fuel
  induction fuel with
  | zero => intro s x hx; simp [dfs] at hx
  | succ f ih =>
    intro s x hx
    rw [dfs] at hx
    rcases List.mem_cons.mp hx with rfl | hmem
    · exact ⟨0, ReachN.refl x⟩
    · obtain ⟨ch, hch, hxch⟩ := List.mem_flatMap.mp hmem
      obtain ⟨n, hn⟩ := ih ch x hxch
      have hp : parentOf es ch = some s := ((mem_childrenOf es s ch).mp hch).2
      have h1 : ReachN es 1 s ch := ReachN.step (ReachN.refl s) hp
      exact ⟨1 + n, ReachN_trans es h1 hn⟩

theorem ReachN_rank (es : List PEntry) (rank : Nat → Nat)
    (hrk : ∀ c ∈ es, ∀ p, parentOf es c = some p → rank p.offset < rank c.offset) :
    ∀ {n : Nat} {s c : PEntry}, ReachN es n s c → c ∈ es →
      (n = 0 ∧ s = c) ∨ (1 ≤ n ∧ rank s.offset + n ≤ rank c.offset) := by
  intro n s c h
  induction h with
  | refl e => exact fun _ => Or.inl ⟨rfl, rfl⟩
  | step hr hp ih =>
    intro hc
    have hpmem := parentOf_mem es _ _ hp
    have hrank := hrk _ hc _ hp
    rcases ih hpmem with ⟨hn0, rfl⟩ | ⟨h1, h2⟩
    · subst hn0
      exact Or.inr ⟨by omega, by omega⟩
    · exact Or.inr ⟨by omega, by omega⟩

theorem dfs_mono (es : List PEntry) :
    ∀ f g s x, f ≤ g → x ∈ dfs es f s → x ∈ dfs es g s := by
  intro f
  induction f with
  | zero => intro g s x _ hx; simp [dfs] at hx
  | succ f ih =>
    intro g s x hfg hx
    obtain ⟨g', rfl⟩ : ∃ g', g = g' + 1 := ⟨g - 1, by omega⟩
    rw [dfs] at hx ⊢
    rcases List.mem_cons.mp hx with rfl | hmem
    · exact List.mem_cons_self _ _
    · obtain ⟨ch, hch, hxch⟩ := List.mem_flatMap.mp hmem
      exact List.mem_cons_of_mem _
        (List.mem_flatMap.mpr ⟨ch, hch, ih g' ch x (by omega) hxch⟩)

theorem dfs_child_step (es : List PEntry) :
    ∀ f s p c, p ∈ dfs es f s → c ∈ es → parentOf es c = some p →
      c ∈ dfs es (f + 1) s := by
  intro f
  induction f with
  | zero => intro s p c hp _ _; simp [dfs] at hp
  | succ f ih =>
    intro s p c hp hc hpar
    rw [dfs] at hp
    rw [dfs]
    rcases List.mem_cons.mp hp with hps | hmem
    · rw [hps] at hpar
      apply List.mem_cons_of_mem
      apply List.mem_flatMap.mpr
      refine ⟨c, (mem_childrenOf es s c).mpr ⟨hc, hpar⟩, ?_⟩
      rw [dfs]
      exact List.mem_cons_self _ _
    · obtain ⟨ch, hch, hpch⟩ := List.mem_flatMap.mp hmem
      exact List.mem_cons_of_mem _
        (List.mem_flatMap.mpr ⟨ch, hch, ih ch p c hpch hc hpar⟩)

theorem reach_dfs (es : List PEntry) :
    ∀ {n : Nat} {s c : PEntry}, ReachN es n s c → c ∈ es →
      c ∈ dfs es (n + 1) s := by
  intro n s c h
  induction h with
  | refl e =>
    intro _
    rw [dfs]
    exact List.mem_cons_self _ _
  | step hr hp ih =>
    intro hc
    have hpmem := parentOf_mem es _ _ hp
    exact dfs_child_step es _ _ _ _ (ih hpmem) hc hp

theorem mem_walkSeeds (es : List PEntry)
    (hofs : ∀ e ∈ es, ∀ o, e.base = some (.ofs o) →
      (es.find? (fun p => p.offset = o)).isSome) (s : PEntry) :
    s ∈ walkSeeds es ↔ s ∈ es ∧ parentOf es s = none := by
  rw [walkSeeds, List.mem_append, (List.mergeSort_perm _ _).mem_iff]
  constructor
  · intro h
    rcases h with h1 | h2
    · rw [List.mem_filter] at h1
      refine ⟨h1.1, ?_⟩
      rw [parentOf]
      have hb : s.base = none := by simpa using h1.2
      rw [hb]
    · rw [List.mem_filter] at h2
      refine ⟨h2.1, ?_⟩
      rw [parentOf]
      cases hb : s.base with
      | none => rfl
      | some br =>
        cases br with
        | ofs o =>
          have := h2.2
          rw [hb] at this
          simp at this
        | ref i =>
          have := h2.2
          rw [hb] at this
          simp only [Option.isNone_iff_eq_none] at this
          exact this
  · intro ⟨hmem, hpar⟩
    rw [parentOf] at hpar
    cases hb : s.base with
    | none =>
      left
      rw [List.mem_filter]
      exact ⟨hmem, by simp [hb]⟩
    | some br =>
      cases br with
      | ofs o =>
        rw [hb] at hpar
        have hpar2 : List.find? (fun p => decide (p.offset = o)) es = none := hpar
        have := hofs s hmem o hb
        rw [hpar2] at this
        simp at this
      | ref i =>
        rw [hb] at hpar
        have hpar2 : List.find? (fun p => decide (p.oid = i)) es = none := hpar
        right
        rw [List.mem_filter]
        refine ⟨hmem, ?_⟩
        rw [hb]
        simp only [Option.isNone_iff_eq_none]
        exact hpar2

theorem walkSeeds_nodup (es : List PEntry) (hnd : es.Nodup) :
    (walkSeeds es).Nodup := by
  rw [walkSeeds]
  apply List.Nodup.append
  · exact ((List.mergeSort_perm _ _).nodup_iff).mpr (hnd.filter _)
  · exact hnd.filter _
  · intro x hx1 hx2
    rw [(List.mergeSort_perm _ _).mem_iff, List.mem_filter] at hx1
    rw [List.mem_filter] at hx2
    have hb : x.base = none := by simpa using hx1.2
    have := hx2.2
    rw [hb] at this
    simp at this

theorem count_flatMap_le_one (f : PEntry → List PEntry) (l : List PEntry)
    (c : PEntry) (hnd : l.Nodup)
    (hone : ∀ s ∈ l, ((f s).count c) ≤ 1)
    (huni : ∀ s1 ∈ l, ∀ s2 ∈ l, c ∈ f s1 → c ∈ f s2 → s1 = s2) :
    ((l.flatMap f).count c) ≤ 1 := by
  induction l with
  | nil => simp
  | cons s rest ih =>
    rw [List.flatMap_cons, List.count_append]
    rw [List.nodup_cons] at hnd
    by_cases hcm : c ∈ f s
    · have hrest : ((rest.flatMap f).count c) = 0 := by
        rw [List.count_eq_zero]
        intro hmem
        obtain ⟨s2, hs2, hcs2⟩ := List.mem_flatMap.mp hmem
        have heq := huni s (List.mem_cons_self _ _) s2
          (List.mem_cons_of_mem _ hs2) hcm hcs2
        rw [heq] at hnd
        exact hnd.1 hs2
      have := hone s (List.mem_cons_self _ _)
      omega
    · have hzero : ((f s).count c) = 0 := List.count_eq_zero.mpr hcm
      rw [hzero]
      have := ih hnd.2 (fun x hx => hone x (List.mem_cons_of_mem _ hx))
        (fun s1 h1 s2 h2 => huni s1 (List.mem_cons_of_mem _ h1) s2
          (List.mem_cons_of_mem _ h2))
      omega

theorem count_dfs_le_one (es : List PEntry) (rank : Nat → Nat)
    (hnd : es.Nodup)
    (hrk : ∀ c ∈ es, ∀ p ∈ es, parentOf es c = some p →
      rank p.offset < rank c.offset) :
    ∀ fuel s, s ∈ es → ∀ c, ((dfs es fuel s).count c) ≤ 1 := by
  intro fuel
  induction fuel with
  | zero => intro s _ c; simp [dfs]
  | succ f ih =>
    intro s hs c
    rw [dfs, List.count_cons]
    by_cases hcs : c = s
    · subst hcs
      have hzero : (((childrenOf es c).flatMap (dfs es f)).count c) = 0 := by
        rw [List.count_eq_zero]
        intro hmem
        obtain ⟨ch, hch, hcch⟩ := List.mem_flatMap.mp hmem
        obtain ⟨hchmem, hchpar⟩ := (mem_childrenOf es c ch).mp hch
        obtain ⟨n, hn⟩ := dfs_mem_reach es f ch c hcch
        have hcmem : c ∈ es := dfs_mem_entries es f ch c hchmem hcch
        have hrch := hrk ch hchmem c hs hchpar
        rcases ReachN_rank es rank
          (fun x hx p hp => hrk x hx p (parentOf_mem es x p hp) hp) hn hcmem with
          ⟨_, heq⟩ | ⟨_, hle⟩
        · rw [heq] at hrch
          omega
        · omega
      rw [hzero]
      simp
    · have hsc : ¬ ((s == c) = true) := fun h => hcs (beq_iff_eq.mp h).symm
      rw [if_neg hsc]
      have hone : ∀ ch ∈ childrenOf es s, ((dfs es f ch).count c) ≤ 1 :=
        fun ch hch => ih ch ((mem_childrenOf es s ch).mp hch).1 c
      have huni : ∀ ch1 ∈ childrenOf es s, ∀ ch2 ∈ childrenOf es s,
          c ∈ dfs es f ch1 → c ∈ dfs es f ch2 → ch1 = ch2 := by
        intro ch1 hch1 ch2 hch2 hc1 hc2
        obtain ⟨hm1, hp1⟩ := (mem_childrenOf es s ch1).mp hch1
        obtain ⟨hm2, hp2⟩ := (mem_childrenOf es s ch2).mp hch2
        obtain ⟨n1, hn1⟩ := dfs_mem_reach es f ch1 c hc1
        obtain ⟨n2, hn2⟩ := dfs_mem_reach es f ch2 c hc2
        have hi1 := ReachN_iterParent es hn1
        have hi2 := ReachN_iterParent es hn2
        have hclash : ∀ a b : PEntry, a ∈ es → b ∈ es →
            parentOf es a = some s → parentOf es b = some s →
            ∀ m1 m2, iterParent es m1 c = some a → iterParent es m2 c = some b →
            m1 < m2 → False := by
          intro a b hma hmb hpa hpb m1 m2 hia hib hlt
          have hadd : iterParent es m2 c =
              (iterParent es m1 c).bind (iterParent es (m2 - m1)) := by
            rw [← iterParent_add es (m2 - m1) m1 c]
            congr 1
            omega
          rw [hia, Option.some_bind, hib] at hadd
          obtain ⟨k, hk⟩ : ∃ k, m2 - m1 = k + 1 := ⟨m2 - m1 - 1, by omega⟩
          rw [hk, iterParent, hpa, Option.some_bind] at hadd
          cases k with
          | zero =>
            rw [iterParent] at hadd
            have hbs : b = s := Option.some.inj hadd
            subst hbs
            have := hrk b hmb b hmb hpb
            omega
          | succ k2 =>
            have hr : ReachN es (k2 + 1) b s :=
              iterParent_ReachN es (k2 + 1) s b hadd.symm
            rcases ReachN_rank es rank
              (fun x hx p hp => hrk x hx p (parentOf_mem es x p hp) hp) hr hs with
              ⟨h0, _⟩ | ⟨_, hle⟩
            · omega
            · have := hrk b hmb s hs hpb
              omega
        rcases Nat.lt_trichotomy n1 n2 with hlt | heq | hgt
        · exact absurd (hclash ch1 ch2 hm1 hm2 hp1 hp2 n1 n2 hi1 hi2 hlt) id
        · subst heq
          rw [hi1] at hi2
          injection hi2
        · exact absurd (hclash ch2 ch1 hm2 hm1 hp2 hp1 n2 n1 hi2 hi1 hgt) id
      have := count_flatMap_le_one (dfs es f) (childrenOf es s) c
        (hnd.filter _) hone huni
      omega

theorem exists_seed (es : List PEntry) (rank : Nat → Nat)
    (hrk : ∀ c ∈ es, ∀ p ∈ es, parentOf es c = some p →
      rank p.offset < rank c.offset) :
    ∀ c ∈ es, ∃ s n, s ∈ es ∧ parentOf es s = none ∧ ReachN es n s c ∧
      n ≤ rank c.offset := by
  have hstep : ∀ r, ∀ c ∈ es, rank c.offset ≤ r →
      ∃ s n, s ∈ es ∧ parentOf es s = none ∧ ReachN es n s c ∧
        n ≤ rank c.offset := by
    intro r
    induction r with
    | zero =>
      intro c hc hr
      cases hp : parentOf es c with
      | none => exact ⟨c, 0, hc, hp, ReachN.refl c, by omega⟩
      | some p =>
        have := hrk c hc p (parentOf_mem es c p hp) hp
        omega
    | succ r ih =>
      intro c hc hr
      cases hp : parentOf es c with
      | none => exact ⟨c, 0, hc, hp, ReachN.refl c, by omega⟩
      | some p =>
        have hpm := parentOf_mem es c p hp
        have hrp := hrk c hc p hpm hp
        obtain ⟨s, n, hs, hsn, hre, hnle⟩ := ih p hpm (by omega)
        exact ⟨s, n + 1, hs, hsn, ReachN.step hre hp, by omega⟩
  exact fun c hc => hstep (rank c.offset) c hc (le_refl _)

theorem seed_subtree_unique (es : List PEntry) (f : Nat) (s1 s2 c : PEntry)
    (h1 : parentOf es s1 = none) (h2 : parentOf es s2 = none)
    (hc1 : c ∈ dfs es f s1) (hc2 : c ∈ dfs es f s2) : s1 = s2 := by
  obtain ⟨n1, hn1⟩ := dfs_mem_reach es f s1 c hc1
  obtain ⟨n2, hn2⟩ := dfs_mem_reach es f s2 c hc2
  have hi1 := ReachN_iterParent es hn1
  have hi2 := ReachN_iterParent es hn2
  have hclash : ∀ a b : PEntry, parentOf es a = none →
      ∀ m1 m2, iterParent es m1 c = some a → iterParent es m2 c = some b →
      m1 < m2 → False := by
    intro a b hpa m1 m2 hia hib hlt
    have hadd : iterParent es m2 c =
        (iterParent es m1 c).bind (iterParent es (m2 - m1)) := by
      rw [← iterParent_add es (m2 - m1) m1 c]
      congr 1
      omega
    rw [hia, Option.some_bind, hib] at hadd
    obtain ⟨k, hk⟩ : ∃ k, m2 - m1 = k + 1 := ⟨m2 - m1 - 1, by omega⟩
    rw [hk, iterParent, hpa, Option.none_bind] at hadd
    exact absurd hadd.symm (by simp)
  rcases Nat.lt_trichotomy n1 n2 with hlt | heq | hgt
  · exact absurd (hclash s1 s2 h1 n1 n2 hi1 hi2 hlt) id
  · subst heq
    rw [hi1] at hi2
    exact Option.some.inj hi2
  · exact absurd (hclash s2 s1 h2 n2 n1 hi2 hi1 hgt) id

theorem walkAll_mem_entries (es : List PEntry) (x : PEntry)
    (hx : x ∈ walkAll es) : x ∈ es := by
  rw [walkAll] at hx
  obtain ⟨s, hsmem, hxs⟩ := List.mem_flatMap.mp hx
  rw [walkSeeds, List.mem_append, (List.mergeSort_perm _ _).mem_iff] at hsmem
  have hs : s ∈ es := by
    rcases hsmem with h1 | h2
    · exact (List.mem_filter.mp h1).1
    · exact (List.mem_filter.mp h2).1
  exact dfs_mem_entries es _ s x hs hxs

theorem walkAll_count_eq_one (es : List PEntry) (rank : Nat → Nat)
    (hnd : es.Nodup)
    (hofs : ∀ e ∈ es, ∀ o, e.base = some (.ofs o) →
      (es.find? (fun p => p.offset = o)).isSome)
    (hrk : ∀ c ∈ es, ∀ p ∈ es, parentOf es c = some p →
      rank p.offset < rank c.offset)
    (hrb : ∀ e ∈ es, rank e.offset < es.length) :
    ∀ c ∈ es, ((walkAll es).count c) = 1 := by
  intro c hc
  have hmem : c ∈ walkAll es := by
    obtain ⟨s, n, hs, hsn, hre, hnle⟩ := exists_seed es rank hrk c hc
    have hseed : s ∈ walkSeeds es := (mem_walkSeeds es hofs s).mpr ⟨hs, hsn⟩
    have hrankc := hrb c hc
    have hdfs : c ∈ dfs es (n + 1) s := reach_dfs es hre hc
    have hdfs2 : c ∈ dfs es (es.length + 1) s :=
      dfs_mono es (n + 1) (es.length + 1) s c (by omega) hdfs
    rw [walkAll]
    exact List.mem_flatMap.mpr ⟨s, hseed, hdfs2⟩
  have hge : 1 ≤ ((walkAll es).count c) := List.count_pos_iff.mpr hmem
  have hle : ((walkAll es).count c) ≤ 1 := by
    rw [walkAll]
    apply count_flatMap_le_one (dfs es (es.length + 1)) (walkSeeds es) c
      (walkSeeds_nodup es hnd)
    · intro s hsw
      exact count_dfs_le_one es rank hnd hrk (es.length + 1) s
        ((mem_walkSeeds es hofs s).mp hsw).1 c
    · intro s1 hw1 s2 hw2 hcs1 hcs2
      exact seed_subtree_unique es (es.length + 1) s1 s2 c
        ((mem_walkSeeds es hofs s1).mp hw1).2
        ((mem_walkSeeds es hofs s2).mp hw2).2 hcs1 hcs2
  omega

theorem flatMap_sublist_of_mem (f : PEntry → List PEntry) (l : List PEntry)
    (s : PEntry) (h : s ∈ l) : List.Sublist (f s) (l.flatMap f) := by
  induction l with
  | nil => simp at h
  | cons x rest ih =>
    rw [List.flatMap_cons]
    rcases List.mem_cons.mp h with rfl | hmem
    · exact List.sublist_append_left _ _
    · exact (ih hmem).trans (List.sublist_append_right _ _)

theorem dfs_parent_sublist (es : List PEntry) :
    ∀ f s c p, c ∈ dfs es f s → c ≠ s → parentOf es c = some p →
      List.Sublist [p, c] (dfs es f s) := by
  intro f
  induction f with
  | zero => intro s c p hc _ _; simp [dfs] at hc
  | succ f ih =>
    intro s c p hc hcs hpar
    rw [dfs] at hc ⊢
    rcases List.mem_cons.mp hc with rfl | hmem
    · exact absurd rfl hcs
    · obtain ⟨ch, hch, hcch⟩ := List.mem_flatMap.mp hmem
      by_cases hcheq : c = ch
      · subst hcheq
        have hps : parentOf es c = some s := ((mem_childrenOf es s c).mp hch).2
        rw [hpar] at hps
        have hpseq : p = s := Option.some.inj hps
        subst hpseq
        exact List.Sublist.cons₂ p (List.singleton_sublist.mpr hmem)
      · have hsub := ih ch c p hcch hcheq hpar
        exact List.Sublist.cons s
          (hsub.trans (flatMap_sublist_of_mem (dfs es f) (childrenOf es s) ch hch))

theorem walkAll_parent_before (es : List PEntry) (rank : Nat → Nat)
    (hofs : ∀ e ∈ es, ∀ o, e.base = some (.ofs o) →
      (es.find? (fun p => p.offset = o)).isSome)
    (hrk : ∀ c ∈ es, ∀ p ∈ es, parentOf es c = some p →
      rank p.offset < rank c.offset)
    (hrb : ∀ e ∈ es, rank e.offset < es.length)
    (c : PEntry) (hc : c ∈ es) (p : PEntry) (hp : parentOf es c = some p) :
    List.Sublist [p, c] (walkAll es) := by
  obtain ⟨s, n, hs, hsn, hre, hnle⟩ := exists_seed es rank hrk c hc
  have hrankc := hrb c hc
  have hdfs : c ∈ dfs es (es.length + 1) s :=
    dfs_mono es (n + 1) (es.length + 1) s c (by omega) (reach_dfs es hre hc)
  have hcs : c ≠ s := by
    intro heq
    rw [heq, hsn] at hp
    exact absurd hp (by simp)
  have hsub := dfs_parent_sublist es (es.length + 1) s c p hdfs hcs hp
  rw [walkAll]
  exact hsub.trans (flatMap_sublist_of_mem (dfs es (es.length + 1))
    (walkSeeds es) s ((mem_walkSeeds es hofs s).mpr ⟨hs, hsn⟩))

/-- Every ofs-delta's base offset is present in the pack (decidable
well-formedness check). -/
def ofsBasesPresent (es : List PEntry) : Bool :=
  es.all (fun e =>
    match e.base with
    | some (.ofs o) => (es.find? (fun p => p.offset = o)).isSome
    | _ => true)

theorem ofsBasesPresent_spec (es : List PEntry) (h : ofsBasesPresent es = true) :
    ∀ e ∈ es, ∀ o, e.base = some (.ofs o) →
      (es.find? (fun p => p.offset = o)).isSome := by
  rw [ofsBasesPresent, List.all_eq_true] at h
  intro e he o hb
  have := h e he
  rw [hb] at this
  exact this

/-- C2: over any well-formed pack (distinct entries, in-pack ofs-delta
bases present, delta chains acyclic as witnessed by a rank function),
the delta chain iterator yields every entry of the pack exactly once —
no entry is resolved or inflated twice — yields nothing that is not a
pack entry, and yields every delta entry's in-pack base before the entry
that depends on it. -/
theorem delta_chain_iterator_spec (es : List PEntry) (rank : Nat → Nat)
    (hnd : es.Nodup)
    (hofs : ofsBasesPresent es = true)
    (hrk : ∀ c ∈ es, ∀ p ∈ es, parentOf es c = some p →
      rank p.offset < rank c.offset)
    (hrb : ∀ e ∈ es, rank e.offset < es.length) :
    (∀ c ∈ es, ((walkAll es).count c) = 1) ∧
    (∀ x ∈ walkAll es, x ∈ es) ∧
    (∀ c ∈ es, ∀ p, parentOf es c = some p →
      List.Sublist [p, c] (walkAll es)) :=
  ⟨walkAll_count_eq_one es rank hnd (ofsBasesPresent_spec es hofs) hrk hrb,
   fun x hx => walkAll_mem_entries es x hx,
   fun c hc p hp => walkAll_parent_before es rank (ofsBasesPresent_spec es hofs)
     hrk hrb c hc p hp⟩

/-- C2 witness: a pack of three entries forming an ofs-delta chain of
length three (the test suite's `test_ofs_deltas_chain` shape). -/
theorem delta_chain_iterator_spec_witness :
    ([PEntry.mk 12 [1] none, PEntry.mk 20 [2] (some (.ofs 12)),
      PEntry.mk 30 [3] (some (.ofs 20))].Nodup) ∧
    (ofsBasesPresent [PEntry.mk 12 [1] none, PEntry.mk 20 [2] (some (.ofs 12)),
      PEntry.mk 30 [3] (some (.ofs 20))] = true) ∧
    ((∀ c ∈ [PEntry.mk 12 [1] none, PEntry.mk 20 [2] (some (.ofs 12)),
        PEntry.mk 30 [3] (some (.ofs 20))],
      ((walkAll [PEntry.mk 12 [1] none, PEntry.mk 20 [2] (some (.ofs 12)),
        PEntry.mk 30 [3] (some (.ofs 20))]).count c) = 1) ∧
    (∀ x ∈ walkAll [PEntry.mk 12 [1] none, PEntry.mk 20 [2] (some (.ofs 12)),
        PEntry.mk 30 [3] (some (.ofs 20))],
      x ∈ [PEntry.mk 12 [1] none, PEntry.mk 20 [2] (some (.ofs 12)),
        PEntry.mk 30 [3] (some (.ofs 20))]) ∧
    (∀ c ∈ [PEntry.mk 12 [1] none, PEntry.mk 20 [2] (some (.ofs 12)),
        PEntry.mk 30 [3] (some (.ofs 20))], ∀ p,
      parentOf [PEntry.mk 12 [1] none, PEntry.mk 20 [2] (some (.ofs 12)),
        PEntry.mk 30 [3] (some (.ofs 20))] c = some p →
      List.Sublist [p, c] (walkAll [PEntry.mk 12 [1] none,
        PEntry.mk 20 [2] (some (.ofs 12)),
        PEntry.mk 30 [3] (some (.ofs 20))]))) :=
  ⟨by decide, by decide,
    delta_chain_iterator_spec
      [PEntry.mk 12 [1] none, PEntry.mk 20 [2] (some (.ofs 12)),
        PEntry.mk 30 [3] (some (.ofs 20))]
      (fun o => if o = 12 then 0 else if o = 20 then 1 else 2)
      (by decide) (by decide) (by decide) (by decide)⟩

/-- C3: iterating a thin pack whose every external ref-delta base the
resolver supplies yields all entries (each exactly once, under the
well-formedness hypotheses); iterating without a resolver, when external
bases exist, fails with `unresolvedDeltas` carrying exactly the ids of
the unresolved bases. -/
theorem thin_pack_resolution (es : List PEntry) (rank : Nat → Nat)
    (resolve : List Nat → Option Unit)
    (hnd : es.Nodup)
    (hofs : ofsBasesPresent es = true)
    (hrk : ∀ c ∈ es, ∀ p ∈ es, parentOf es c = some p →
      rank p.offset < rank c.offset)
    (hrb : ∀ e ∈ es, rank e.offset < es.length) :
    ((∀ i ∈ extRefIds es, (resolve i).isSome) →
      iter_entries resolve es = .ok (walkAll es) ∧
      ∀ c ∈ es, ((walkAll es).count c) = 1) ∧
    (extRefIds es ≠ [] →
      iter_entries (fun _ => Option.none) es =
        .error (.unresolvedDeltas (extRefIds es))) := by
  constructor
  · intro hres
    constructor
    · simp only [iter_entries]
      have hfil : (extRefIds es).filter (fun i => (resolve i).isNone) = [] := by
        rw [List.filter_eq_nil_iff]
        intro i hi
        intro hn
        exact (Option.isSome_iff_ne_none.mp (hres i hi))
          (Option.isNone_iff_eq_none.mp hn)
      rw [hfil, if_pos rfl]
    · exact walkAll_count_eq_one es rank hnd (ofsBasesPresent_spec es hofs) hrk hrb
  · intro hne
    simp only [iter_entries]
    have hfil : (extRefIds es).filter
        (fun i => ((fun _ => (Option.none : Option Unit)) i).isNone) =
        extRefIds es := by
      apply List.filter_eq_self.mpr
      intro a _
      rfl
    rw [hfil, if_neg hne]

/-- C3 witness: a one-entry thin pack whose ref-delta points at the
external id `[7]`: with a resolver providing it the walk succeeds; with
no resolver the run fails with `unresolvedDeltas [[7]]`. -/
theorem thin_pack_resolution_witness :
    ([PEntry.mk 12 [1] (some (.ref [7]))].Nodup) ∧
    (ofsBasesPresent [PEntry.mk 12 [1] (some (.ref [7]))] = true) ∧
    (∀ i ∈ extRefIds [PEntry.mk 12 [1] (some (.ref [7]))],
      (((fun i => if i = [7] then some () else Option.none) : List Nat → Option Unit)
        i).isSome) ∧
    (extRefIds [PEntry.mk 12 [1] (some (.ref [7]))] ≠ []) ∧
    (iter_entries (fun i => if i = [7] then some () else Option.none)
        [PEntry.mk 12 [1] (some (.ref [7]))] =
      .ok (walkAll [PEntry.mk 12 [1] (some (.ref [7]))]) ∧
    ∀ c ∈ [PEntry.mk 12 [1] (some (.ref [7]))],
      ((walkAll [PEntry.mk 12 [1] (some (.ref [7]))]).count c) = 1) ∧
    (iter_entries (fun _ => Option.none) [PEntry.mk 12 [1] (some (.ref [7]))] =
      .error (.unresolvedDeltas (extRefIds [PEntry.mk 12 [1] (some (.ref [7]))]))) :=
  ⟨by decide, by decide, by decide, by decide,
    (thin_pack_resolution [PEntry.mk 12 [1] (some (.ref [7]))] (fun _ => 0)
      (fun i => if i = [7] then some () else Option.none)
      (by decide) (by decide) (by decide) (by decide)).1 (by decide),
    (thin_pack_resolution [PEntry.mk 12 [1] (some (.ref [7]))] (fun _ => 0)
      (fun i => if i = [7] then some () else Option.none)
      (by decide) (by decide) (by decide) (by decide)).2 (by decide)⟩
